import Mathlib

/-!
# geo-track: verification of the storage, dispatch and ingestion core

A shallow embedding of the `geo-track` repository's core components, with
theorems settling the spec claims about them:

* `shared/src/data.rs` — the `Status` data model and `Status::merge`;
* `server/src/storage/memory.rs` — the in-memory storage engine
  (`persist_status` under the three `DupeStrategy` policies, `get_statuses`
  range queries);
* `server/src/storage.rs` — the command/query payloads and their declared
  result types;
* `server/src/cq.rs` — the dispatch actor (`Address`/`Mailbox`) step;
* `server/src/ingest.rs` — the UDP ingestion loop's error handling;
* `server/src/util/cbor.rs` — the resumable stream decoder.

Modelling conventions: Rust machine integers become `Nat`/`Int`; `f64`
values are carried as raw bit patterns (no field of the repository's code
ever does float arithmetic or float comparison — floats are only stored,
merged with `Option::or`, and moved across the wire); fallible code
returns `Except`/`Option`; `HashMap` becomes a total function with `[]`
as the default (absent) value; `BTreeMap` becomes a key-sorted
association list.
-/

/-- A raw floating-point value as it travels through the system: the width in
bytes of its wire encoding (2, 4 or 8) together with its raw bit pattern.
The repository never computes with these values, so the bits are carried
verbatim. -/
structure FVal where
  w : Nat
  bits : Nat
deriving DecidableEq, Repr

/-- `geo_types::Coord<f64>`: a longitude/latitude pair, fields `x` and `y`. -/
structure Coord where
  x : FVal
  y : FVal
deriving DecidableEq, Repr

/-- `shared::data::SourceId`: a 128-bit UUID, modelled as its integer value.
Ordered and hashable, used as a map key. -/
abbrev SourceId : Type := Nat

/-- `time::OffsetDateTime` as used by the repository: only its position on
the time line matters (map ordering and range queries), modelled as an
integer number of (sub)seconds since the epoch. -/
abbrev Timestamp : Type := Int

/-- `shared::data::Status` (shared/src/data.rs): one telemetry snapshot.
`position`, `bearing`, `speed` are optional; absence is `none`. -/
structure Status where
  source_id : SourceId
  timestamp : Timestamp
  position : Option Coord
  bearing : Option FVal
  speed : Option FVal
deriving DecidableEq, Repr

namespace Status

/-- `Status::merge` (shared/src/data.rs): keeps `source_id`/`timestamp` of
`self`, and for each optional field takes `rhs`'s value when present,
falling back to `self`'s (`Option::or`). -/
def merge (self rhs : Status) : Status :=
  { source_id := self.source_id
    timestamp := self.timestamp
    position := rhs.position.or self.position
    bearing := rhs.bearing.or self.bearing
    speed := rhs.speed.or self.speed }

end Status

/-- `storage::StorageError` (server/src/storage.rs). The `Sled` variant is
behind a disabled cargo feature and is omitted. -/
inductive StorageError where
  | storageNotCompiled (name : String)
  | unknownDupeStrategy (name : String)
  | unknownStorageType (name : String)
deriving DecidableEq, Repr

/-- `storage::DupeStrategy` (server/src/storage.rs): the policy applied when
two `Status` packets share a `(source_id, timestamp)` key. -/
inductive DupeStrategy where
  | drop
  | merge
  | overwrite
deriving DecidableEq, Repr

/-- The inner `BTreeMap<OffsetDateTime, Status>` of the in-memory engine:
an association list sorted by strictly increasing key. -/
abbrev TsMap : Type := List (Timestamp × Status)

namespace TsMap

/-- `BTreeMap::get`: the value stored at key `ts`, if any. -/
def lookup (m : TsMap) (ts : Timestamp) : Option Status :=
  match m with
  | [] => none
  | (k, v) :: t => if k = ts then some v else lookup t ts

/-- The common shape of the `BTreeMap` entry operations used by
`persist_status`: replace the entry at key `ts` with `g (old value)`,
where `g none` is the value inserted when the key is absent. The sorted
position of a fresh key is found by scanning for the first larger key. -/
def updateWith (ts : Timestamp) (g : Option Status → Status) (m : TsMap) : TsMap :=
  match m with
  | [] => [(ts, g none)]
  | (k, w) :: t =>
    if ts < k then (ts, g none) :: (k, w) :: t
    else if ts = k then (k, g (some w)) :: t
    else (k, w) :: updateWith ts g t

/-- `BTreeMap::entry(ts).or_insert(v)`: insert `v` at `ts` if the key is
absent, keep the existing entry otherwise (used by `DupeStrategy::Drop`). -/
def orInsert (ts : Timestamp) (v : Status) (m : TsMap) : TsMap :=
  updateWith ts (fun o => o.getD v) m

/-- `BTreeMap::entry(ts).and_modify(f).or_insert(v)`: apply `f` to the
existing entry at `ts`, or insert `v` if the key is absent (used by
`DupeStrategy::Merge` with `f := fun s => s.merge v`). -/
def andModifyOrInsert (ts : Timestamp) (f : Status → Status) (v : Status) (m : TsMap) : TsMap :=
  updateWith ts (fun o => match o with | some w => f w | none => v) m

/-- `BTreeMap::insert(ts, v)`: unconditionally store `v` at `ts` (used by
`DupeStrategy::Overwrite`). -/
def insert (ts : Timestamp) (v : Status) (m : TsMap) : TsMap :=
  updateWith ts (fun _ => v) m

/-- Keys strictly increase along the list (the `BTreeMap` representation
invariant). -/
def SortedKeys (m : TsMap) : Prop :=
  List.Pairwise (fun a b => a.1 < b.1) m

end TsMap

/-- `std::ops::Bound<OffsetDateTime>`: one end of a queried time range. -/
inductive TsBound where
  | unbounded
  | included (t : Timestamp)
  | excluded (t : Timestamp)
deriving DecidableEq, Repr

/-- Whether `ts` lies above the lower bound `b`. -/
def TsBound.lowerAdmits (b : TsBound) (ts : Timestamp) : Bool :=
  match b with
  | .unbounded => true
  | .included t => t ≤ ts
  | .excluded t => t < ts

/-- Whether `ts` lies below the upper bound `b`. -/
def TsBound.upperAdmits (b : TsBound) (ts : Timestamp) : Bool :=
  match b with
  | .unbounded => true
  | .included t => ts ≤ t
  | .excluded t => ts < t

/-- Membership of a timestamp in a `(lower, upper)` pair of bounds. -/
def tsInRange (lo hi : TsBound) (ts : Timestamp) : Bool :=
  lo.lowerAdmits ts && hi.upperAdmits ts

/-- The documented panic condition of `BTreeMap::range`: it panics when the
range start exceeds the range end, or when they are equal and both ends
are `Excluded`. -/
def rangePanics (lo hi : TsBound) : Bool :=
  match lo, hi with
  | .unbounded, _ => false
  | _, .unbounded => false
  | .included a, .included b => b < a
  | .included a, .excluded b => b < a
  | .excluded a, .included b => b < a
  | .excluded a, .excluded b => b ≤ a

/-- `storage::memory::MemoryStorage` (server/src/storage/memory.rs): a
per-source `BTreeMap` of statuses keyed by timestamp, plus the configured
duplicate-handling strategy. The outer `HashMap` is modelled as a total
function defaulting to the empty map. -/
structure MemoryStorage where
  statuses : SourceId → TsMap
  dupe_strategy : DupeStrategy

namespace MemoryStorage

/-- `MemoryStorage::new`: empty storage with the given strategy. -/
def new (dupe_strategy : DupeStrategy) : MemoryStorage :=
  { statuses := fun _ => [], dupe_strategy := dupe_strategy }

/-- The pure state transition of `MemoryStorage::persist_status`
(server/src/storage/memory.rs): route the incoming `status` to the inner
map at `status.source_id` (`entry(..).or_default()`) and apply the
strategy's `BTreeMap` operation at key `status.timestamp`. -/
def persistState (st : MemoryStorage) (status : Status) : MemoryStorage :=
  { st with
    statuses :=
      Function.update st.statuses status.source_id
        (match st.dupe_strategy with
         | .drop => TsMap.orInsert status.timestamp status (st.statuses status.source_id)
         | .merge =>
           TsMap.andModifyOrInsert status.timestamp (fun s => s.merge status) status
             (st.statuses status.source_id)
         | .overwrite => TsMap.insert status.timestamp status (st.statuses status.source_id)) }

/-- `MemoryStorage::persist_status`: the in-memory engine never fails; the
function body ends in `Ok(())`. -/
def persist_status (st : MemoryStorage) (status : Status) :
    Except StorageError (MemoryStorage × Unit) :=
  .ok (st.persistState status, ())

/-- `MemoryStorage::get_statuses` (server/src/storage/memory.rs): look up the
source's map; if absent, return the default empty vector; otherwise
collect the values of `BTreeMap::range(timestamps)` in ascending key
order. `none` models the panic of `BTreeMap::range` on an invalid range
(which is only reached when the source's map exists). -/
def get_statuses (st : MemoryStorage) (source_id : SourceId) (lo hi : TsBound) :
    Option (Except StorageError (List Status)) :=
  match st.statuses source_id with
  | [] => some (.ok [])
  | m =>
    if rangePanics lo hi then none
    else some (.ok ((m.filter (fun p => tsInRange lo hi p.1)).map (·.2)))

/-- The stored record of source `sid` at timestamp `ts`, if any. -/
def lookup (st : MemoryStorage) (sid : SourceId) (ts : Timestamp) : Option Status :=
  TsMap.lookup (st.statuses sid) ts

/-- Representation invariant: every inner map is sorted by key. -/
def Sorted (st : MemoryStorage) : Prop :=
  ∀ sid, (st.statuses sid).SortedKeys

/-- Key consistency: a record stored under `(sid, ts)` reports exactly that
source and timestamp. -/
def KeyConsistent (st : MemoryStorage) : Prop :=
  ∀ sid ts s, st.lookup sid ts = some s → s.source_id = sid ∧ s.timestamp = ts

/-- Run a sequence of `persist_status` calls from a starting state. -/
def run (st : MemoryStorage) (ss : List Status) : MemoryStorage :=
  ss.foldl persistState st

end MemoryStorage

/-- `cq::CqrsError` (server/src/cq.rs). -/
inductive CqrsError where
  | channelClosed
  | senderUnavailable
deriving DecidableEq, Repr

/-- `cq::Envelope` (server/src/cq.rs): one queued request, a tagged union of
a command or a query payload together with its private one-shot reply
channel. The channel is modelled by whether its receiving half is still
held by the caller (`receiverAlive`). -/
inductive Envelope (C Q : Type) where
  | command (payload : C) (receiverAlive : Bool)
  | query (payload : Q) (receiverAlive : Bool)

/-- The state of the bounded mpsc channel behind an `Address`/`Mailbox`
pair: the requests enqueued but not yet processed, in arrival order, and
whether every `Address` (sender handle) has been dropped. -/
structure MailboxState (C Q : Type) where
  queue : List (Envelope C Q)
  sendersDropped : Bool

/-- Whether the reply channel of a queued request still has its receiving
half (the caller has not cancelled or panicked). -/
def Envelope.receiverAlive {C Q : Type} : Envelope C Q → Bool
  | .command _ a => a
  | .query _ a => a

/-- A value sent into the reply channel of the processed request. -/
inductive Reply (RC RQ : Type) where
  | toCommand (r : RC)
  | toQuery (r : RQ)

/-- The observable effect of one completed `Mailbox::next` call: its return
value, the channel state afterwards, and the reply (if any) delivered to
the processed request's private channel. -/
structure StepOutcome (C Q RC RQ : Type) where
  result : Except CqrsError Unit
  state : MailboxState C Q
  delivered : Option (Reply RC RQ)

/-- `Mailbox::next` (server/src/cq.rs). `rx.recv()` completes with the head
envelope when the queue is nonempty, completes with `None` when the queue
is empty and every sender is gone (then `next` returns `ChannelClosed`),
and suspends otherwise (modelled as `none`: the call does not complete).
On a command envelope the command handler runs and its result is sent
into the envelope's reply channel; likewise for a query; a dead reply
channel makes `next` return `SenderUnavailable`. -/
def mailboxNext {C Q RC RQ : Type} (onCommand : C → RC) (onQuery : Q → RQ)
    (st : MailboxState C Q) : Option (StepOutcome C Q RC RQ) :=
  match st.queue with
  | .command payload alive :: rest =>
    let resp := onCommand payload
    some { result := if alive then .ok () else .error .senderUnavailable
           state := { st with queue := rest }
           delivered := if alive then some (.toCommand resp) else none }
  | .query payload alive :: rest =>
    let resp := onQuery payload
    some { result := if alive then .ok () else .error .senderUnavailable
           state := { st with queue := rest }
           delivered := if alive then some (.toQuery resp) else none }
  | [] =>
    if st.sendersDropped then
      some { result := .error .channelClosed, state := st, delivered := none }
    else none

/-- `storage::StorageCommand` (server/src/storage.rs). -/
inductive StorageCommand where
  | persistStatus (s : Status)

/-- `storage::GetStatuses` (server/src/storage.rs): a source and a pair of
range bounds, as carried by the query payload. -/
structure GetStatuses where
  source_id : SourceId
  timestamps : TsBound × TsBound

/-- `storage::StorageQuery` (server/src/storage.rs). -/
inductive StorageQuery where
  | getStatuses (q : GetStatuses)

/-- The declared result type of `StorageCommand` in
`impl Request for StorageCommand` (server/src/storage.rs):
`Result<(), StorageError>`. -/
def StorageCommandResult : Type := Except StorageError Unit

/-- The declared result type of `StorageQuery` in
`impl Request for StorageQuery` (server/src/storage.rs). The source reads
`type Result = Result<()>;` under a `//TODO` comment — the success payload
is the unit type, not a sequence of `Status`. -/
def StorageQueryResult : Type := Except StorageError Unit

/-- The result type §6 of the spec declares for the `GetStatuses` query:
`Result<ordered_sequence<Status>, StorageError>`. Written here only to
record the intended contract next to the embedded one. -/
def SpecGetStatusesResult : Type := Except StorageError (List Status)

/-- One iteration's environment for the UDP receive loop of
`ingest::listen_udp` (server/src/ingest.rs): either `recv_from` failed, or
a datagram arrived, in which case `decoded` is the outcome of
`serde_cbor::from_slice::<Status>` and `forwardOk` tells whether
`handler.run(status)` (forwarding into the dispatch actor) succeeded. -/
inductive UdpEvent where
  | recvFailed
  | datagram (decoded : Option Status) (forwardOk : Bool)

/-- How one iteration of the UDP receive loop ends. -/
inductive UdpStepOutcome where
  | loggedAndContinued
  | storedAndContinued (s : Status)
  | panicked
deriving DecidableEq, Repr

/-- One iteration of the `loop` body in `ingest::listen_udp`
(server/src/ingest.rs): a failed `recv_from` is logged (`debug!`) and the
loop continues; a datagram that fails to decode is logged and dropped; a
decoded status is forwarded with `handler.run(status).await.expect(..)`,
so a forwarding failure panics the listener task, ending its loop. -/
def udpStep : UdpEvent → UdpStepOutcome
  | .recvFailed => .loggedAndContinued
  | .datagram none _ => .loggedAndContinued
  | .datagram (some s) true => .storedAndContinued s
  | .datagram (some _) false => .panicked

/-! ## The CBOR wire format

The ingestion paths decode `Status` from CBOR: the TCP path through
`util::cbor::CborDecoder` / `tokio_serde_cbor` (a `tokio_util` `Decoder`
over a growable buffer) and the UDP path through
`serde_cbor::from_slice`. The byte-level format (RFC 8949) is embedded
here for the definite-length encodings, which are exactly what the
repository's own encoder and test vectors (shared/src/data.rs) produce;
indefinite-length items, which no component of the repository emits, are
modelled as invalid. Bytes are `Nat`s (real streams carry values < 256; a
head byte ≥ 256 falls into the invalid case). -/

namespace Cbor

/-- A decoded CBOR data item. Floating-point items keep their wire width
and raw bit pattern (`flt`); the repository never computes with them. -/
inductive Val where
  | uint (n : Nat)
  | nint (n : Nat)
  | bstr (bs : List Nat)
  | tstr (bs : List Nat)
  | arr (vs : List Val)
  | map (kvs : List (Val × Val))
  | tag (t : Nat) (v : Val)
  | simple (n : Nat)
  | flt (w : Nat) (bits : Nat)

/-- Outcome of a decode attempt on a byte buffer: the bytes run out before
the item is complete (`needMore`, the `ciborium` EOF / `Ok(None)` path),
the bytes are malformed (`bad`), or an item is complete (`ok`), returning
the bytes after it. -/
inductive ParseRes (α : Type) where
  | needMore
  | bad
  | ok (v : α) (rest : List Nat)

/-- Big-endian value of a byte list. -/
def beNat (bs : List Nat) : Nat :=
  bs.foldl (fun a b => 256 * a + b) 0

/-- Read exactly `n` bytes as a big-endian integer; `none` when the buffer
is shorter than `n`. -/
def readN (n : Nat) (bs : List Nat) : Option (Nat × List Nat) :=
  if bs.length < n then none else some (beNat (bs.take n), bs.drop n)

/-- Decode the argument of a head byte with additional information `ai`
(major types 0–6): immediate values 0–23, or a 1/2/4/8-byte big-endian
integer for 24–27; 28–31 are invalid (31 marks indefinite length, not
modelled — see the section comment). -/
def parseArg (ai : Nat) (bs : List Nat) : ParseRes Nat :=
  if ai < 24 then .ok ai bs
  else if ai = 24 then
    match readN 1 bs with
    | none => .needMore
    | some (a, r) => .ok a r
  else if ai = 25 then
    match readN 2 bs with
    | none => .needMore
    | some (a, r) => .ok a r
  else if ai = 26 then
    match readN 4 bs with
    | none => .needMore
    | some (a, r) => .ok a r
  else if ai = 27 then
    match readN 8 bs with
    | none => .needMore
    | some (a, r) => .ok a r
  else .bad

/-- Take a length-`n` payload (byte and text strings). -/
def takeCount (n : Nat) (bs : List Nat) : ParseRes (List Nat) :=
  if bs.length < n then .needMore else .ok (bs.take n) (bs.drop n)

mutual

/-- Parse one CBOR data item from the front of the buffer. `fuel` bounds
the nesting depth; every nesting level consumes at least its head byte,
so `buffer length + 1` fuel always suffices (`parse` below). -/
def parseVal : Nat → List Nat → ParseRes Val
  | 0, _ => .needMore
  | _ + 1, [] => .needMore
  | fuel + 1, b :: bs =>
    let mt := b / 32
    let ai := b % 32
    if mt = 0 then
      match parseArg ai bs with
      | .needMore => .needMore
      | .bad => .bad
      | .ok n r => .ok (.uint n) r
    else if mt = 1 then
      match parseArg ai bs with
      | .needMore => .needMore
      | .bad => .bad
      | .ok n r => .ok (.nint n) r
    else if mt = 2 then
      match parseArg ai bs with
      | .needMore => .needMore
      | .bad => .bad
      | .ok n r =>
        match takeCount n r with
        | .needMore => .needMore
        | .bad => .bad
        | .ok payload r2 => .ok (.bstr payload) r2
    else if mt = 3 then
      match parseArg ai bs with
      | .needMore => .needMore
      | .bad => .bad
      | .ok n r =>
        match takeCount n r with
        | .needMore => .needMore
        | .bad => .bad
        | .ok payload r2 => .ok (.tstr payload) r2
    else if mt = 4 then
      match parseArg ai bs with
      | .needMore => .needMore
      | .bad => .bad
      | .ok n r =>
        match parseMany fuel n r with
        | .needMore => .needMore
        | .bad => .bad
        | .ok vs r2 => .ok (.arr vs) r2
    else if mt = 5 then
      match parseArg ai bs with
      | .needMore => .needMore
      | .bad => .bad
      | .ok n r =>
        match parsePairs fuel n r with
        | .needMore => .needMore
        | .bad => .bad
        | .ok kvs r2 => .ok (.map kvs) r2
    else if mt = 6 then
      match parseArg ai bs with
      | .needMore => .needMore
      | .bad => .bad
      | .ok t r =>
        match parseVal fuel r with
        | .needMore => .needMore
        | .bad => .bad
        | .ok v r2 => .ok (.tag t v) r2
    else if mt = 7 then
      if ai < 24 then .ok (.simple ai) bs
      else if ai = 24 then
        match readN 1 bs with
        | none => .needMore
        | some (a, r) => if a < 32 then .bad else .ok (.simple a) r
      else if ai = 25 then
        match readN 2 bs with
        | none => .needMore
        | some (a, r) => .ok (.flt 2 a) r
      else if ai = 26 then
        match readN 4 bs with
        | none => .needMore
        | some (a, r) => .ok (.flt 4 a) r
      else if ai = 27 then
        match readN 8 bs with
        | none => .needMore
        | some (a, r) => .ok (.flt 8 a) r
      else .bad
    else .bad

/-- Parse `n` consecutive data items (array elements). -/
def parseMany : Nat → Nat → List Nat → ParseRes (List Val)
  | _, 0, bs => .ok [] bs
  | fuel, n + 1, bs =>
    match parseVal fuel bs with
    | .needMore => .needMore
    | .bad => .bad
    | .ok v r =>
      match parseMany fuel n r with
      | .needMore => .needMore
      | .bad => .bad
      | .ok vs r2 => .ok (v :: vs) r2

/-- Parse `n` consecutive key/value pairs (map entries). -/
def parsePairs : Nat → Nat → List Nat → ParseRes (List (Val × Val))
  | _, 0, bs => .ok [] bs
  | fuel, n + 1, bs =>
    match parseVal fuel bs with
    | .needMore => .needMore
    | .bad => .bad
    | .ok k r =>
      match parseVal fuel r with
      | .needMore => .needMore
      | .bad => .bad
      | .ok v r2 =>
        match parsePairs fuel n r2 with
        | .needMore => .needMore
        | .bad => .bad
        | .ok kvs r3 => .ok ((k, v) :: kvs) r3

end

/-- Parse one CBOR item from the front of `bs` with always-sufficient
fuel. -/
def parse (bs : List Nat) : ParseRes Val :=
  parseVal (bs.length + 1) bs

end Cbor

namespace Cbor

/-- UTF-8 bytes of the wire key `"sourceId"`. -/
def keySourceId : List Nat := [0x73, 0x6f, 0x75, 0x72, 0x63, 0x65, 0x49, 0x64]

/-- UTF-8 bytes of the wire key `"timestamp"`. -/
def keyTimestamp : List Nat := [0x74, 0x69, 0x6d, 0x65, 0x73, 0x74, 0x61, 0x6d, 0x70]

/-- UTF-8 bytes of the wire key `"position"`. -/
def keyPosition : List Nat := [0x70, 0x6f, 0x73, 0x69, 0x74, 0x69, 0x6f, 0x6e]

/-- UTF-8 bytes of the wire key `"bearing"`. -/
def keyBearing : List Nat := [0x62, 0x65, 0x61, 0x72, 0x69, 0x6e, 0x67]

/-- UTF-8 bytes of the wire key `"speed"`. -/
def keySpeed : List Nat := [0x73, 0x70, 0x65, 0x65, 0x64]

/-- The five top-level fields of the `Status` wire record. -/
inductive SField where
  | sourceId
  | timestamp
  | position
  | bearing
  | speed
deriving DecidableEq, Repr

/-- Identify a map key with a `Status` field, as the serde-derived
deserializer does (`#[serde(deny_unknown_fields, rename_all =
"camelCase")]` on `Status`): a text or byte-string key carrying a field
name, or an unsigned integer carrying a field index. Any other key — and
any unknown name or out-of-range index, since unknown fields are denied —
fails the decode (`none`). -/
def statusKey (k : Val) : Option SField :=
  match k with
  | .tstr bs =>
    if bs = keySourceId then some .sourceId
    else if bs = keyTimestamp then some .timestamp
    else if bs = keyPosition then some .position
    else if bs = keyBearing then some .bearing
    else if bs = keySpeed then some .speed
    else none
  | .bstr bs =>
    if bs = keySourceId then some .sourceId
    else if bs = keyTimestamp then some .timestamp
    else if bs = keyPosition then some .position
    else if bs = keyBearing then some .bearing
    else if bs = keySpeed then some .speed
    else none
  | .uint 0 => some .sourceId
  | .uint 1 => some .timestamp
  | .uint 2 => some .position
  | .uint 3 => some .bearing
  | .uint 4 => some .speed
  | _ => none

/-- `SourceId` from a wire value: `uuid`'s binary serde form, a 16-byte
byte string taken verbatim. -/
def valOfSourceId (v : Val) : Option SourceId :=
  match v with
  | .bstr bs => if bs.length = 16 then some (beNat bs) else none
  | _ => none

/-- Greatest `i64`, the integer type `time::serde::timestamp` goes
through. -/
def maxI64 : Nat := 9223372036854775807

/-- Smallest unix timestamp `OffsetDateTime::from_unix_timestamp` accepts
(the `time` crate's year −9999 lower limit). -/
def tsMinUnix : Int := -377705116800

/-- Greatest unix timestamp `OffsetDateTime::from_unix_timestamp` accepts
(the `time` crate's year 9999 upper limit). -/
def tsMaxUnix : Int := 253402300799

/-- Timestamp from a wire value: an integer number of seconds since the
epoch, deserialized as `i64` and then range-checked by
`OffsetDateTime::from_unix_timestamp`. -/
def valOfTimestamp (v : Val) : Option Timestamp :=
  match v with
  | .uint n =>
    if n ≤ maxI64 then
      if tsMinUnix ≤ (n : Int) ∧ (n : Int) ≤ tsMaxUnix then some ((n : Int) : Timestamp)
      else none
    else none
  | .nint n =>
    if n + 1 ≤ maxI64 + 1 then
      if tsMinUnix ≤ (-(n + 1 : Int)) ∧ (-(n + 1 : Int)) ≤ tsMaxUnix then
        some ((-(n + 1 : Int)) : Timestamp)
      else none
    else none
  | _ => none

/-- An `f64` field value from a wire value: a floating-point item of any of
the three wire widths, kept as raw bits. Non-float items are rejected
(the numeric-coercion corners of the two CBOR serde crates are not
modelled; no claim depends on them). -/
def valOfF64 (v : Val) : Option FVal :=
  match v with
  | .flt w bits => some ⟨w, bits⟩
  | _ => none

/-- The two fields of `geo_types::Coord`. -/
inductive CField where
  | cx
  | cy
deriving DecidableEq, Repr

/-- Key lookup for `Coord`, which is serde-derived without
`deny_unknown_fields`: unknown names and indices are skipped
(`ignored`), keys of non-identifier type fail the decode. -/
inductive CKey where
  | field (f : CField)
  | ignored
  | malformed
deriving DecidableEq, Repr

/-- Identify a `Coord` map key (fields `x`, `y`, in declaration order). -/
def coordKey (k : Val) : CKey :=
  match k with
  | .tstr bs =>
    if bs = [0x78] then .field .cx
    else if bs = [0x79] then .field .cy
    else .ignored
  | .bstr bs =>
    if bs = [0x78] then .field .cx
    else if bs = [0x79] then .field .cy
    else .ignored
  | .uint 0 => .field .cx
  | .uint 1 => .field .cy
  | .uint _ => .ignored
  | _ => .malformed

/-- Fold `Coord` map entries into the two field slots, rejecting duplicate
fields and, at the end, missing fields. -/
def coordFromEntries : List (Val × Val) → Option FVal → Option FVal → Option Coord
  | [], some x, some y => some { x := x, y := y }
  | [], _, _ => none
  | (k, v) :: t, xs, ys =>
    match coordKey k with
    | .field .cx =>
      if xs.isSome then none
      else
        match valOfF64 v with
        | some f => coordFromEntries t (some f) ys
        | none => none
    | .field .cy =>
      if ys.isSome then none
      else
        match valOfF64 v with
        | some f => coordFromEntries t xs (some f)
        | none => none
    | .ignored => coordFromEntries t xs ys
    | .malformed => none

/-- `Coord` from a wire value: a map of its fields, or (serde's sequence
form for structs) a two-element array `[x, y]`. -/
def valOfCoord (v : Val) : Option Coord :=
  match v with
  | .map kvs => coordFromEntries kvs none none
  | .arr [xv, yv] =>
    match valOfF64 xv, valOfF64 yv with
    | some x, some y => some { x := x, y := y }
    | _, _ => none
  | _ => none

/-- Fold `Status` map entries into the five field slots, as the derived
`Deserialize` does: identify each key (`statusKey`; unknown fields are
denied), reject duplicate fields, decode each value with the field's
decoder, and at the end require the two mandatory fields. An optional
field is `none` exactly when no entry set it. -/
def statusFromEntries :
    List (Val × Val) → Option SourceId → Option Timestamp → Option Coord → Option FVal →
      Option FVal → Option Status
  | [], some sid, some ts, ps, bs, ss =>
    some { source_id := sid, timestamp := ts, position := ps, bearing := bs, speed := ss }
  | [], _, _, _, _, _ => none
  | (k, v) :: t, sids, tss, ps, bs, ss =>
    match statusKey k with
    | none => none
    | some .sourceId =>
      if sids.isSome then none
      else
        match valOfSourceId v with
        | some sid => statusFromEntries t (some sid) tss ps bs ss
        | none => none
    | some .timestamp =>
      if tss.isSome then none
      else
        match valOfTimestamp v with
        | some ts => statusFromEntries t sids (some ts) ps bs ss
        | none => none
    | some .position =>
      if ps.isSome then none
      else
        match valOfCoord v with
        | some p => statusFromEntries t sids tss (some p) bs ss
        | none => none
    | some .bearing =>
      if bs.isSome then none
      else
        match valOfF64 v with
        | some b => statusFromEntries t sids tss ps (some b) ss
        | none => none
    | some .speed =>
      if ss.isSome then none
      else
        match valOfF64 v with
        | some s => statusFromEntries t sids tss ps bs (some s)
        | none => none

/-- `Status` from a decoded wire item: the wire format is a map of named
fields (§6); anything else is rejected. (serde's positional sequence form
for structs is not modelled at the top level.) -/
def statusOfVal (v : Val) : Option Status :=
  match v with
  | .map kvs => statusFromEntries kvs none none none none none
  | _ => none

/-- `CborDecoder::<Status>::decode` (server/src/util/cbor.rs) as a function
of the accumulated buffer: run `ciborium::de::from_reader` on the front
of the buffer; an EOF mid-item leaves the buffer untouched and yields
`Ok(None)` (`needMore`); a decoded item consumes exactly its bytes
(`src.advance(start - end)`) and yields the `Status`; malformed bytes or
a non-`Status` item yield `Err` (`bad`). -/
def decode (buf : List Nat) : ParseRes Status :=
  match parse buf with
  | .needMore => .needMore
  | .bad => .bad
  | .ok v rest =>
    match statusOfVal v with
    | some st => .ok st rest
    | none => .bad

/-- `serde_cbor::from_slice::<Status>` (the UDP datagram decode,
server/src/ingest.rs): one complete record filling the whole slice;
trailing bytes are an error. -/
def fromSlice (bs : List Nat) : Option Status :=
  match parse bs with
  | .ok v [] => statusOfVal v
  | _ => none

/-- Repeatedly strip complete records off the front of the buffer, as
`FramedRead` does by calling `decode` until it yields `Ok(None)` or
`Err`: returns the decoded records, the leftover bytes, and whether a
decode error terminated the stream. `fuel` bounds the number of records;
every record consumes at least one byte, so `buffer length + 1` always
suffices (`drain` below). -/
def drainF : Nat → List Nat → List Status × List Nat × Bool
  | 0, buf => ([], buf, false)
  | fuel + 1, buf =>
    match decode buf with
    | .ok v rest =>
      let (is, r, e) := drainF fuel rest
      (v :: is, r, e)
    | .needMore => ([], buf, false)
    | .bad => ([], buf, true)

/-- All complete records at the front of the buffer, with always-sufficient
fuel. -/
def drain (buf : List Nat) : List Status × List Nat × Bool :=
  drainF (buf.length + 1) buf

/-- The observable state of the framed TCP record stream: records emitted
so far, bytes buffered but not yet consumed, and whether a decode error
has torn the connection down. -/
structure DecoderState where
  emitted : List Status
  buf : List Nat
  dead : Bool
deriving DecidableEq, Repr

/-- The decoder state before any bytes arrive. -/
def initState : DecoderState := { emitted := [], buf := [], dead := false }

/-- One read's worth of bytes arrives: append it to the buffer and drain
all now-complete records. After a decode error the connection is closed
and nothing further is read. -/
def feed (st : DecoderState) (chunk : List Nat) : DecoderState :=
  if st.dead then st
  else
    let (is, r, e) := drain (st.buf ++ chunk)
    { emitted := st.emitted ++ is, buf := r, dead := e }

/-- Feed a sequence of reads, one at a time. -/
def feedAll (st : DecoderState) (chunks : List (List Nat)) : DecoderState :=
  chunks.foldl feed st

end Cbor

/-! ## Example values used by concrete witnesses and counterexamples -/

/-- A bare status record: source 1 at time 10, no optional fields. -/
def exS10 : Status :=
  { source_id := 1, timestamp := 10, position := none, bearing := none, speed := none }

/-- A status record of source 1 at time 20 carrying a speed value. -/
def exS20 : Status :=
  { source_id := 1, timestamp := 20, position := none, bearing := none
    speed := some ⟨8, 0x402e000000000000⟩ }

/-- A status record of source 1 at time 30 carrying a bearing value. -/
def exS30 : Status :=
  { source_id := 1, timestamp := 30, position := none, bearing := some ⟨8, 0x3ff0000000000000⟩
    speed := none }

/-- A concrete storage state: source 1 has records at timestamps 10, 20 and
30; every other source has none. -/
def exStore : MemoryStorage :=
  { statuses := fun sid => if sid = 1 then [(10, exS10), (20, exS20), (30, exS30)] else []
    dupe_strategy := .merge }

/-- The spec's end-to-end example record (§8): source
`0aaec05a-0e7d-4fd5-abc0-0ba69e3cfe11` at unix time 1627364719, no
optional fields. -/
def exMinimal : Status :=
  { source_id := 0x0aaec05a0e7d4fd5abc00ba69e3cfe11, timestamp := 1627364719
    position := none, bearing := none, speed := none }

/-- The CBOR encoding of `exMinimal`, byte for byte the `MINIMAL_CBOR` test
vector of shared/src/data.rs: a 2-entry map with text keys `"sourceId"`
(16-byte string) and `"timestamp"` (32-bit unsigned argument). -/
def exMinimalCbor : List Nat :=
  [0xa2,
   0x68, 0x73, 0x6f, 0x75, 0x72, 0x63, 0x65, 0x49, 0x64,
   0x50, 0x0a, 0xae, 0xc0, 0x5a, 0x0e, 0x7d, 0x4f, 0xd5,
   0xab, 0xc0, 0x0b, 0xa6, 0x9e, 0x3c, 0xfe, 0x11,
   0x69, 0x74, 0x69, 0x6d, 0x65, 0x73, 0x74, 0x61, 0x6d, 0x70,
   0x1a, 0x60, 0xff, 0x9d, 0x6f]

/-- The decoded map entries of `exMinimalCbor`: the two mandatory fields
under their text keys, and no optional fields. -/
def exMinimalEntries : List (Cbor.Val × Cbor.Val) :=
  [(.tstr Cbor.keySourceId,
    .bstr [0x0a, 0xae, 0xc0, 0x5a, 0x0e, 0x7d, 0x4f, 0xd5,
           0xab, 0xc0, 0x0b, 0xa6, 0x9e, 0x3c, 0xfe, 0x11]),
   (.tstr Cbor.keyTimestamp, .uint 1627364719)]

/-! ## Lemmas about the `BTreeMap` model -/

namespace TsMap

theorem lookup_eq_none_of_forall_lt (ts : Timestamp) (m : TsMap)
    (h : ∀ x ∈ m, ts < x.1) : lookup m ts = none := by
  induction m with
  | nil => rfl
  | cons a t ih =>
    obtain ⟨k, v⟩ := a
    have ha : ts < k := h (k, v) (List.mem_cons_self _ _)
    simp only [lookup]
    rw [if_neg (by intro hk; subst hk; exact lt_irrefl _ ha)]
    exact ih fun x hx => h x (List.mem_cons_of_mem _ hx)

theorem lookup_updateWith_self (ts : Timestamp) (g : Option Status → Status) (m : TsMap)
    (h : SortedKeys m) : lookup (updateWith ts g m) ts = some (g (lookup m ts)) := by
  induction m with
  | nil => simp [updateWith, lookup]
  | cons a t ih =>
    obtain ⟨k, w⟩ := a
    rw [SortedKeys, List.pairwise_cons] at h
    by_cases h1 : ts < k
    · have hne : ¬k = ts := by intro hk; subst hk; exact lt_irrefl _ h1
      have htail : lookup t ts = none :=
        lookup_eq_none_of_forall_lt ts t fun x hx => lt_trans h1 (h.1 x hx)
      simp [updateWith, h1, lookup, hne, htail]
    · by_cases h2 : ts = k
      · subst h2
        simp [updateWith, lt_irrefl, lookup]
      · have h3 : ¬k = ts := fun hk => h2 hk.symm
        simp only [updateWith, if_neg h1, if_neg h2, lookup, if_neg h3]
        exact ih h.2

theorem lookup_updateWith_ne (ts ts' : Timestamp) (g : Option Status → Status) (m : TsMap)
    (h : ts' ≠ ts) : lookup (updateWith ts g m) ts' = lookup m ts' := by
  have hne : ¬ts = ts' := fun hk => h hk.symm
  induction m with
  | nil =>
    simp only [updateWith, lookup]
    rw [if_neg hne]
  | cons a t ih =>
    obtain ⟨k, w⟩ := a
    by_cases h1 : ts < k
    · simp only [updateWith, if_pos h1, lookup]
      rw [if_neg hne]
    · by_cases h2 : ts = k
      · subst h2
        simp only [updateWith, if_neg h1, lookup]
        rw [if_neg hne, if_neg hne]
      · simp only [updateWith, if_neg h1, if_neg h2, lookup]
        by_cases h3 : k = ts'
        · rw [if_pos h3, if_pos h3]
        · rw [if_neg h3, if_neg h3, ih]

theorem mem_updateWith (ts : Timestamp) (g : Option Status → Status) (m : TsMap) :
    ∀ x ∈ updateWith ts g m, x.1 = ts ∨ ∃ y ∈ m, x.1 = y.1 := by
  induction m with
  | nil =>
    intro x hx
    simp only [updateWith, List.mem_singleton] at hx
    subst hx
    exact Or.inl rfl
  | cons a t ih =>
    obtain ⟨k, w⟩ := a
    intro x hx
    by_cases h1 : ts < k
    · rw [updateWith, if_pos h1] at hx
      rcases List.mem_cons.mp hx with hx | hx
      · subst hx; exact Or.inl rfl
      · rcases List.mem_cons.mp hx with hx | hx
        · subst hx; exact Or.inr ⟨(k, w), List.mem_cons_self _ _, rfl⟩
        · exact Or.inr ⟨x, List.mem_cons_of_mem _ hx, rfl⟩
    · by_cases h2 : ts = k
      · rw [updateWith, if_neg h1, if_pos h2] at hx
        rcases List.mem_cons.mp hx with hx | hx
        · subst hx; exact Or.inl h2.symm
        · exact Or.inr ⟨x, List.mem_cons_of_mem _ hx, rfl⟩
      · rw [updateWith, if_neg h1, if_neg h2] at hx
        rcases List.mem_cons.mp hx with hx | hx
        · subst hx; exact Or.inr ⟨(k, w), List.mem_cons_self _ _, rfl⟩
        · rcases ih x hx with h | ⟨y, hy, hxy⟩
          · exact Or.inl h
          · exact Or.inr ⟨y, List.mem_cons_of_mem _ hy, hxy⟩

theorem sortedKeys_updateWith (ts : Timestamp) (g : Option Status → Status) (m : TsMap)
    (h : SortedKeys m) : SortedKeys (updateWith ts g m) := by
  induction m with
  | nil => simp [updateWith, SortedKeys]
  | cons a t ih =>
    obtain ⟨k, w⟩ := a
    rw [SortedKeys, List.pairwise_cons] at h
    by_cases h1 : ts < k
    · rw [SortedKeys]
      simp only [updateWith, if_pos h1]
      rw [List.pairwise_cons]
      refine ⟨?_, ?_⟩
      · intro x hx
        rcases List.mem_cons.mp hx with hx | hx
        · subst hx; exact h1
        · exact lt_trans h1 (h.1 x hx)
      · rw [List.pairwise_cons]
        exact ⟨h.1, h.2⟩
    · by_cases h2 : ts = k
      · rw [SortedKeys, updateWith, if_neg h1, if_pos h2, List.pairwise_cons]
        exact ⟨fun x hx => h2 ▸ h.1 x hx, h.2⟩
      · rw [SortedKeys, updateWith, if_neg h1, if_neg h2, List.pairwise_cons]
        refine ⟨?_, ih h.2⟩
        intro x hx
        rcases mem_updateWith ts g t x hx with hx1 | ⟨y, hy, hxy⟩
        · rw [hx1]
          exact lt_of_le_of_ne (not_lt.mp h1) fun hk => h2 hk.symm
        · rw [hxy]
          exact h.1 y hy

theorem lookup_eq_some_iff_mem (ts : Timestamp) (s : Status) (m : TsMap)
    (h : SortedKeys m) : lookup m ts = some s ↔ (ts, s) ∈ m := by
  induction m with
  | nil => simp [lookup]
  | cons a t ih =>
    obtain ⟨k, w⟩ := a
    rw [SortedKeys, List.pairwise_cons] at h
    by_cases hk : k = ts
    · subst hk
      rw [lookup, if_pos rfl]
      constructor
      · intro hw
        injection hw with hw
        rw [hw]
        exact List.mem_cons_self _ _
      · intro hw
        rcases List.mem_cons.mp hw with hw | hw
        · injection hw with _ h2
          rw [h2]
        · exact absurd (h.1 _ hw) (lt_irrefl k)
    · rw [lookup, if_neg hk, ih h.2]
      constructor
      · exact fun hw => List.mem_cons_of_mem _ hw
      · intro hw
        rcases List.mem_cons.mp hw with hw | hw
        · exact absurd (congrArg Prod.fst hw).symm hk
        · exact hw

end TsMap

/-! ## Lemmas about the in-memory engine -/

namespace MemoryStorage

theorem dupe_strategy_persistState (st : MemoryStorage) (s : Status) :
    (st.persistState s).dupe_strategy = st.dupe_strategy := rfl

theorem lookup_persistState_ne (st : MemoryStorage) (s : Status) (sid : SourceId)
    (ts : Timestamp) (h : ¬(sid = s.source_id ∧ ts = s.timestamp)) :
    (st.persistState s).lookup sid ts = st.lookup sid ts := by
  unfold persistState lookup
  by_cases hs : sid = s.source_id
  · subst hs
    have ht : ts ≠ s.timestamp := fun hh => h ⟨rfl, hh⟩
    simp only [Function.update_same]
    cases st.dupe_strategy <;>
      simp only [TsMap.orInsert, TsMap.andModifyOrInsert, TsMap.insert] <;>
      exact TsMap.lookup_updateWith_ne _ _ _ _ ht
  · simp only [Function.update_noteq hs]

theorem lookup_persistState_drop (st : MemoryStorage) (s : Status)
    (hs : st.Sorted) (hd : st.dupe_strategy = .drop) :
    (st.persistState s).lookup s.source_id s.timestamp =
      some ((st.lookup s.source_id s.timestamp).getD s) := by
  unfold persistState lookup
  simp only [Function.update_same, hd, TsMap.orInsert]
  exact TsMap.lookup_updateWith_self _ _ _ (hs s.source_id)

theorem lookup_persistState_merge (st : MemoryStorage) (s : Status)
    (hs : st.Sorted) (hd : st.dupe_strategy = .merge) :
    (st.persistState s).lookup s.source_id s.timestamp =
      some (match st.lookup s.source_id s.timestamp with
            | some w => w.merge s
            | none => s) := by
  unfold persistState lookup
  simp only [Function.update_same, hd, TsMap.andModifyOrInsert]
  exact TsMap.lookup_updateWith_self _ _ _ (hs s.source_id)

theorem lookup_persistState_overwrite (st : MemoryStorage) (s : Status)
    (hs : st.Sorted) (hd : st.dupe_strategy = .overwrite) :
    (st.persistState s).lookup s.source_id s.timestamp = some s := by
  unfold persistState lookup
  simp only [Function.update_same, hd, TsMap.insert]
  rw [TsMap.lookup_updateWith_self _ _ _ (hs s.source_id)]

theorem sorted_persistState (st : MemoryStorage) (s : Status) (h : st.Sorted) :
    (st.persistState s).Sorted := by
  intro sid
  unfold persistState
  by_cases hs : sid = s.source_id
  · subst hs
    simp only [Function.update_same]
    cases st.dupe_strategy <;>
      simp only [TsMap.orInsert, TsMap.andModifyOrInsert, TsMap.insert] <;>
      exact TsMap.sortedKeys_updateWith _ _ _ (h _)
  · simp only [Function.update_noteq hs]
    exact h sid

theorem keyConsistent_persistState (st : MemoryStorage) (s : Status)
    (hs : st.Sorted) (h : st.KeyConsistent) : (st.persistState s).KeyConsistent := by
  intro sid ts v hv
  by_cases hkey : sid = s.source_id ∧ ts = s.timestamp
  · obtain ⟨h1, h2⟩ := hkey
    subst h1
    subst h2
    rcases hstrat : st.dupe_strategy with _ | _ | _
    · rw [lookup_persistState_drop st s hs hstrat] at hv
      injection hv with hv
      rcases hold : st.lookup s.source_id s.timestamp with _ | w
      · rw [hold] at hv
        simp only [Option.getD] at hv
        exact hv ▸ ⟨rfl, rfl⟩
      · rw [hold] at hv
        simp only [Option.getD] at hv
        exact hv ▸ h _ _ _ hold
    · rw [lookup_persistState_merge st s hs hstrat] at hv
      injection hv with hv
      rcases hold : st.lookup s.source_id s.timestamp with _ | w
      · rw [hold] at hv
        exact hv ▸ ⟨rfl, rfl⟩
      · rw [hold] at hv
        obtain ⟨hw1, hw2⟩ := h _ _ _ hold
        exact hv ▸ ⟨hw1, hw2⟩
    · rw [lookup_persistState_overwrite st s hs hstrat] at hv
      injection hv with hv
      exact hv ▸ ⟨rfl, rfl⟩
  · rw [lookup_persistState_ne st s sid ts hkey] at hv
    exact h _ _ _ hv

theorem sorted_new (strat : DupeStrategy) : (new strat).Sorted := by
  intro sid
  exact List.Pairwise.nil

theorem keyConsistent_new (strat : DupeStrategy) : (new strat).KeyConsistent := by
  intro sid ts s h
  exact absurd h (by simp [new, lookup, TsMap.lookup])

theorem wf_run (ss : List Status) (st : MemoryStorage) (hs : st.Sorted)
    (hk : st.KeyConsistent) : (st.run ss).Sorted ∧ (st.run ss).KeyConsistent := by
  induction ss generalizing st with
  | nil => exact ⟨hs, hk⟩
  | cons s t ih =>
    exact ih (st.persistState s) (sorted_persistState st s hs)
      (keyConsistent_persistState st s hs hk)

end MemoryStorage

/-! ## The claims -/

/-- C1. Dedup policy determinism of the in-memory engine
(`MemoryStorage::persist_status`): starting from a state with nothing at
key `k = (source_id, timestamp)`, persisting `v1` then `v2` at `k` leaves
`v1` stored under `Drop` and `merge(v1, v2)` under `Merge`; under
`Overwrite` it leaves `v2` from any starting state; and under `Drop` an
existing record at `k` is never touched. -/
theorem c1_dedup_policy (st : MemoryStorage) (v1 v2 : Status)
    (hsid : v2.source_id = v1.source_id) (hts : v2.timestamp = v1.timestamp)
    (hsorted : st.Sorted) :
    (st.dupe_strategy = .drop → st.lookup v1.source_id v1.timestamp = none →
      ((st.persistState v1).persistState v2).lookup v1.source_id v1.timestamp = some v1)
    ∧ (st.dupe_strategy = .merge → st.lookup v1.source_id v1.timestamp = none →
      ((st.persistState v1).persistState v2).lookup v1.source_id v1.timestamp =
        some (v1.merge v2))
    ∧ (st.dupe_strategy = .overwrite →
      ((st.persistState v1).persistState v2).lookup v1.source_id v1.timestamp = some v2)
    ∧ (st.dupe_strategy = .drop → ∀ v0, st.lookup v1.source_id v1.timestamp = some v0 →
      (st.persistState v1).lookup v1.source_id v1.timestamp = some v0) := by
  have hs1 : (st.persistState v1).Sorted := MemoryStorage.sorted_persistState st v1 hsorted
  refine ⟨?_, ?_, ?_, ?_⟩
  · intro hd habsent
    have h1 : (st.persistState v1).lookup v1.source_id v1.timestamp = some v1 := by
      rw [MemoryStorage.lookup_persistState_drop st v1 hsorted hd, habsent]
      rfl
    have h2 := MemoryStorage.lookup_persistState_drop (st.persistState v1) v2 hs1
      ((MemoryStorage.dupe_strategy_persistState st v1).trans hd)
    rw [hsid, hts, h1] at h2
    exact h2
  · intro hd habsent
    have h1 : (st.persistState v1).lookup v1.source_id v1.timestamp = some v1 := by
      rw [MemoryStorage.lookup_persistState_merge st v1 hsorted hd, habsent]
    have h2 := MemoryStorage.lookup_persistState_merge (st.persistState v1) v2 hs1
      ((MemoryStorage.dupe_strategy_persistState st v1).trans hd)
    rw [hsid, hts, h1] at h2
    exact h2
  · intro hd
    have h2 := MemoryStorage.lookup_persistState_overwrite (st.persistState v1) v2 hs1
      ((MemoryStorage.dupe_strategy_persistState st v1).trans hd)
    rw [hsid, hts] at h2
    exact h2
  · intro hd v0 hfound
    rw [MemoryStorage.lookup_persistState_drop st v1 hsorted hd, hfound]
    rfl

/-- Witness for C1 at concrete inputs: the empty `Drop`-strategy store,
`v1 = exS10`, `v2 = exS20` retagged to the same key. -/
theorem c1_dedup_policy_witness :
    ({ exS20 with timestamp := 10 } : Status).source_id = exS10.source_id
    ∧ ({ exS20 with timestamp := 10 } : Status).timestamp = exS10.timestamp
    ∧ (MemoryStorage.new .drop).Sorted
    ∧ (MemoryStorage.new .drop).lookup exS10.source_id exS10.timestamp = none
    ∧ (((MemoryStorage.new .drop).persistState exS10).persistState
        { exS20 with timestamp := 10 }).lookup exS10.source_id exS10.timestamp = some exS10 := by
  have hs : (MemoryStorage.new .drop).Sorted := MemoryStorage.sorted_new .drop
  refine ⟨rfl, rfl, hs, rfl, ?_⟩
  exact (c1_dedup_policy (MemoryStorage.new .drop) exS10 { exS20 with timestamp := 10 }
    rfl rfl hs).1 rfl rfl

/-- C3. Field-level contract of `Status::merge`: `source_id` and `timestamp`
come from the base value `a`, and each optional field is `b`'s value when
`b` has it set, else `a`'s. -/
theorem c3_merge_fields (a b : Status) :
    (a.merge b).source_id = a.source_id
    ∧ (a.merge b).timestamp = a.timestamp
    ∧ (a.merge b).position = (if b.position.isSome then b.position else a.position)
    ∧ (a.merge b).bearing = (if b.bearing.isSome then b.bearing else a.bearing)
    ∧ (a.merge b).speed = (if b.speed.isSome then b.speed else a.speed) := by
  refine ⟨rfl, rfl, ?_, ?_, ?_⟩
  · cases hb : b.position <;> simp [Status.merge, hb]
  · cases hb : b.bearing <;> simp [Status.merge, hb]
  · cases hb : b.speed <;> simp [Status.merge, hb]

/-- C9. Key consistency of the in-memory engine: every state reachable from
a fresh store by `persist_status` calls (under any `DupeStrategy`) stores
each record under exactly its own `(source_id, timestamp)`; and any
single `persist_status` call preserves that invariant (together with the
map's sortedness, which reachable states also enjoy). -/
theorem c9_key_invariant :
    (∀ (strat : DupeStrategy) (ss : List Status),
      ((MemoryStorage.new strat).run ss).KeyConsistent)
    ∧ (∀ (st : MemoryStorage) (s : Status), st.Sorted → st.KeyConsistent →
      (st.persistState s).KeyConsistent) :=
  ⟨fun strat ss =>
    (MemoryStorage.wf_run ss (MemoryStorage.new strat) (MemoryStorage.sorted_new strat)
      (MemoryStorage.keyConsistent_new strat)).2,
   fun st s hs hk => MemoryStorage.keyConsistent_persistState st s hs hk⟩

/-- Witness for C9 at concrete inputs: a two-record run and one preserved
step from a fresh store. -/
theorem c9_key_invariant_witness :
    ((MemoryStorage.new .merge).run [exS10, exS20]).KeyConsistent
    ∧ ((MemoryStorage.new .drop).persistState exS10).KeyConsistent :=
  ⟨c9_key_invariant.1 .merge [exS10, exS20],
   c9_key_invariant.2 (MemoryStorage.new .drop) exS10 (MemoryStorage.sorted_new .drop)
     (MemoryStorage.keyConsistent_new .drop)⟩

/-- C10. Frame property of `persist_status`: a persist touches at most the
entry at the incoming record's own `(source_id, timestamp)` key — every
other key's stored record is unchanged — and the in-memory engine always
returns `Ok`. -/
theorem c10_persist_frame (st : MemoryStorage) (s : Status) (sid : SourceId)
    (ts : Timestamp) (h : ¬(sid = s.source_id ∧ ts = s.timestamp)) :
    (st.persistState s).lookup sid ts = st.lookup sid ts
    ∧ st.persist_status s = .ok (st.persistState s, ()) :=
  ⟨MemoryStorage.lookup_persistState_ne st s sid ts h, rfl⟩

/-- Witness for C10 at concrete inputs: persisting `exS10` (key `(1, 10)`)
leaves the entry at `(2, 99)` unchanged. -/
theorem c10_persist_frame_witness :
    (exStore.persistState exS10).lookup 2 99 = exStore.lookup 2 99
    ∧ exStore.persist_status exS10 = .ok (exStore.persistState exS10, ()) :=
  c10_persist_frame exStore exS10 2 99 (by decide)

/-- `exStore` satisfies the sortedness invariant. -/
theorem exStore_sorted : exStore.Sorted := by
  intro sid
  by_cases h : sid = 1 <;> simp [exStore, h, TsMap.SortedKeys]

/-- `exStore` satisfies the key-consistency invariant. -/
theorem exStore_keyConsistent : exStore.KeyConsistent := by
  intro sid ts s h
  rw [MemoryStorage.lookup] at h
  by_cases h1 : sid = 1
  · subst h1
    have he : exStore.statuses 1 = [(10, exS10), (20, exS20), (30, exS30)] := rfl
    rw [he] at h
    simp only [TsMap.lookup] at h
    by_cases e1 : (10 : Timestamp) = ts
    · rw [if_pos e1] at h
      injection h with h
      subst h
      exact ⟨rfl, e1⟩
    · rw [if_neg e1] at h
      by_cases e2 : (20 : Timestamp) = ts
      · rw [if_pos e2] at h
        injection h with h
        subst h
        exact ⟨rfl, e2⟩
      · rw [if_neg e2] at h
        by_cases e3 : (30 : Timestamp) = ts
        · rw [if_pos e3] at h
          injection h with h
          subst h
          exact ⟨rfl, e3⟩
        · rw [if_neg e3] at h
          exact absurd h (by simp)
  · have he : exStore.statuses sid = [] := by simp [exStore, h1]
    rw [he] at h
    exact absurd h (by simp [TsMap.lookup])

/-- Counterexample for C2 as stated: the claim covers "every time range",
but for a source that has stored records, `BTreeMap::range` panics on a
reversed range (documented panic on `start > end`), so `get_statuses`
does not return at all — neither the in-range records nor an empty
sequence. Here source 1 has records and the range is `[30, 20]`. -/
theorem c2_range_query_counterexample :
    exStore.get_statuses 1 (.included 30) (.included 20) = none := by
  rfl

/-- C2 (amended). For every sorted, key-consistent storage state and every
time range whose bounds are not reversed (`BTreeMap::range`'s panic
condition fails), `get_statuses` returns `Ok` of exactly the stored
records of the source whose timestamp lies within the supplied
inclusive/exclusive bounds, in strictly ascending timestamp order; a
source with no stored records yields `Ok` of the empty sequence for every
range, and no `StorageError` is ever produced. -/
theorem c2_range_query (st : MemoryStorage) (sid : SourceId) (lo hi : TsBound)
    (hs : st.Sorted) (hk : st.KeyConsistent) :
    (st.statuses sid = [] → st.get_statuses sid lo hi = some (.ok []))
    ∧ (rangePanics lo hi = false →
      ∃ l, st.get_statuses sid lo hi = some (.ok l)
        ∧ (∀ s, s ∈ l ↔ ∃ ts, st.lookup sid ts = some s ∧ tsInRange lo hi ts = true)
        ∧ List.Pairwise (· < ·) (l.map Status.timestamp)) := by
  constructor
  · intro hempty
    unfold MemoryStorage.get_statuses
    rw [hempty]
  · intro hp
    refine ⟨((st.statuses sid).filter fun p => tsInRange lo hi p.1).map (·.2), ?_, ?_, ?_⟩
    · unfold MemoryStorage.get_statuses
      rcases hm : st.statuses sid with _ | ⟨a, t⟩
      · simp
      · rw [hp]
        simp
    · intro s
      constructor
      · intro hmem
        rcases List.mem_map.mp hmem with ⟨p, hpmem, hps⟩
        have hpm := List.mem_filter.mp hpmem
        refine ⟨p.1, ?_, hpm.2⟩
        rw [MemoryStorage.lookup, TsMap.lookup_eq_some_iff_mem _ _ _ (hs sid), ← hps]
        exact hpm.1
      · rintro ⟨ts, hlk, hin⟩
        rw [MemoryStorage.lookup, TsMap.lookup_eq_some_iff_mem _ _ _ (hs sid)] at hlk
        exact List.mem_map.mpr ⟨(ts, s), List.mem_filter.mpr ⟨hlk, hin⟩, rfl⟩
    · rw [List.pairwise_map, List.pairwise_map]
      refine List.Pairwise.imp_of_mem ?_ (List.Pairwise.filter _ (hs sid))
      intro a b ha hb hab
      have ha2 := hk sid a.1 a.2 (by
        rw [MemoryStorage.lookup, TsMap.lookup_eq_some_iff_mem _ _ _ (hs sid)]
        exact List.mem_of_mem_filter ha)
      have hb2 := hk sid b.1 b.2 (by
        rw [MemoryStorage.lookup, TsMap.lookup_eq_some_iff_mem _ _ _ (hs sid)]
        exact List.mem_of_mem_filter hb)
      show a.2.timestamp < b.2.timestamp
      rw [ha2.2, hb2.2]
      exact hab

/-- Witness for C2 at concrete inputs: `exStore`, source 1, the spec's
example range `[15, 30)`. -/
theorem c2_range_query_witness :
    (exStore.statuses 1 = [] →
      exStore.get_statuses 1 (.included 15) (.excluded 30) = some (.ok []))
    ∧ (rangePanics (.included 15) (.excluded 30) = false →
      ∃ l, exStore.get_statuses 1 (.included 15) (.excluded 30) = some (.ok l)
        ∧ (∀ s, s ∈ l ↔ ∃ ts, exStore.lookup 1 ts = some s
            ∧ tsInRange (.included 15) (.excluded 30) ts = true)
        ∧ List.Pairwise (· < ·) (l.map Status.timestamp)) :=
  c2_range_query exStore 1 (.included 15) (.excluded 30) exStore_sorted exStore_keyConsistent

/-- C4. The `GetStatuses` query's declared result type. The spec declares
`GetStatuses{source_id, time_range} -> Result<ordered_sequence<Status>,
StorageError>`, but the code's `impl Request for StorageQuery` declares
`type Result = Result<(), StorageError>` (under a `//TODO`): every
successful query reply is the informationless `ok ()`, carrying no
`Status` sequence back to the caller. -/
theorem c4_query_result_unit (r : StorageQueryResult) (h : ∃ u : Unit, r = Except.ok u) :
    r = Except.ok () := by
  rcases h with ⟨⟨⟩, rfl⟩
  rfl

/-- Witness for C4 at a concrete input: the successful reply itself. -/
theorem c4_query_result_unit_witness :
    (Except.ok () : StorageQueryResult) = Except.ok () :=
  c4_query_result_unit (Except.ok ()) ⟨(), rfl⟩

/-- C5. `Mailbox::next` processes exactly one pending request — it removes
the head of the queue and nothing else, runs the command handler on a
command payload and the query handler on a query payload, and sends the
handler's result into that request's private reply channel; it returns
`ChannelClosed` exactly when the queue is empty and every sender handle
is gone (no request can ever arrive again), and `SenderUnavailable`
exactly when the processed request's reply receiver was abandoned. -/
theorem c5_mailbox_step {C Q RC RQ : Type} (onCommand : C → RC) (onQuery : Q → RQ)
    (st : MailboxState C Q) (out : StepOutcome C Q RC RQ)
    (h : mailboxNext onCommand onQuery st = some out) :
    (out.result = .error .channelClosed ↔ st.queue = [] ∧ st.sendersDropped = true)
    ∧ (∀ e rest, st.queue = e :: rest →
      out.state.queue = rest ∧ out.state.sendersDropped = st.sendersDropped
      ∧ (∀ p alive, e = .command p alive →
        (alive = true → out.result = .ok () ∧ out.delivered = some (.toCommand (onCommand p)))
        ∧ (alive = false → out.result = .error .senderUnavailable ∧ out.delivered = none))
      ∧ (∀ p alive, e = .query p alive →
        (alive = true → out.result = .ok () ∧ out.delivered = some (.toQuery (onQuery p)))
        ∧ (alive = false → out.result = .error .senderUnavailable ∧ out.delivered = none)))
    ∧ (out.result = .error .senderUnavailable ↔
      ∃ e rest, st.queue = e :: rest ∧ e.receiverAlive = false) := by
  rcases hq : st.queue with _ | ⟨e, rest⟩
  · rcases hd : st.sendersDropped with _ | _
    · simp [mailboxNext, hq, hd] at h
    · simp only [mailboxNext, hq, hd, if_pos, Option.some.injEq] at h
      subst h
      refine ⟨by simp [hd], ?_, by simp⟩
      intro e rest hcontra
      simp at hcontra
  · rcases e with ⟨p, alive⟩ | ⟨p, alive⟩ <;> rcases halive : alive with _ | _
    · simp only [mailboxNext, hq, halive, Option.some.injEq] at h
      subst h
      refine ⟨by simp, ?_, ?_⟩
      · rintro e2 rest2 heq
        injection heq with he hrest
        subst he
        subst hrest
        refine ⟨rfl, rfl, ?_, ?_⟩
        · rintro p2 alive2 heq2
          injection heq2 with hp ha
          subst hp
          subst ha
          exact ⟨fun hcontra => by simp at hcontra, fun _ => ⟨rfl, rfl⟩⟩
        · rintro p2 alive2 heq2
          exact absurd heq2 (by simp)
      · constructor
        · intro _
          exact ⟨.command p false, rest, rfl, rfl⟩
        · intro _
          rfl
    · simp only [mailboxNext, hq, halive, Option.some.injEq] at h
      subst h
      refine ⟨by simp, ?_, ?_⟩
      · rintro e2 rest2 heq
        injection heq with he hrest
        subst he
        subst hrest
        refine ⟨rfl, rfl, ?_, ?_⟩
        · rintro p2 alive2 heq2
          injection heq2 with hp ha
          subst hp
          subst ha
          exact ⟨fun _ => ⟨rfl, rfl⟩, fun hcontra => by simp at hcontra⟩
        · rintro p2 alive2 heq2
          exact absurd heq2 (by simp)
      · constructor
        · intro hcontra
          simp at hcontra
        · rintro ⟨e2, rest2, heq2, hdead⟩
          injection heq2 with he _
          subst he
          simp [Envelope.receiverAlive] at hdead
    · simp only [mailboxNext, hq, halive, Option.some.injEq] at h
      subst h
      refine ⟨by simp, ?_, ?_⟩
      · rintro e2 rest2 heq
        injection heq with he hrest
        subst he
        subst hrest
        refine ⟨rfl, rfl, ?_, ?_⟩
        · rintro p2 alive2 heq2
          exact absurd heq2 (by simp)
        · rintro p2 alive2 heq2
          injection heq2 with hp ha
          subst hp
          subst ha
          exact ⟨fun hcontra => by simp at hcontra, fun _ => ⟨rfl, rfl⟩⟩
      · constructor
        · intro _
          exact ⟨.query p false, rest, rfl, rfl⟩
        · intro _
          rfl
    · simp only [mailboxNext, hq, halive, Option.some.injEq] at h
      subst h
      refine ⟨by simp, ?_, ?_⟩
      · rintro e2 rest2 heq
        injection heq with he hrest
        subst he
        subst hrest
        refine ⟨rfl, rfl, ?_, ?_⟩
        · rintro p2 alive2 heq2
          exact absurd heq2 (by simp)
        · rintro p2 alive2 heq2
          injection heq2 with hp ha
          subst hp
          subst ha
          exact ⟨fun _ => ⟨rfl, rfl⟩, fun hcontra => by simp at hcontra⟩
      · constructor
        · intro hcontra
          simp at hcontra
        · rintro ⟨e2, rest2, heq2, hdead⟩
          injection heq2 with he _
          subst he
          simp [Envelope.receiverAlive] at hdead

/-- Witness for C5 at a concrete input: the empty, closed mailbox, whose
step returns `ChannelClosed`. -/
theorem c5_mailbox_step_witness :
    ({ queue := [], sendersDropped := true } : MailboxState Nat Nat).queue = []
    ∧ ({ queue := [], sendersDropped := true } : MailboxState Nat Nat).sendersDropped = true :=
  (c5_mailbox_step (fun n => n + 1) (fun n => n * 2)
      { queue := [], sendersDropped := true }
      { result := .error .channelClosed, state := { queue := [], sendersDropped := true },
        delivered := none } rfl).1.mp rfl

/-- Counterexample for C8 as stated: when forwarding a decoded `Status`
into the dispatch actor fails, the claim says the failure is logged and
the receive loop continues; in the code the forward result goes through
`.expect("Status channel")`, which panics the listener task — the loop
iteration ends in a panic, not in a logged continuation. -/
theorem c8_udp_forward_counterexample :
    udpStep (.datagram (some exS10) false) = .panicked
    ∧ UdpStepOutcome.panicked ≠ UdpStepOutcome.loggedAndContinued :=
  ⟨rfl, by simp⟩

/-- C8 (amended). In the UDP ingestor, a forwarding failure for a
successfully decoded `Status` panics the listener task (ending its
receive loop) — so it never silently succeeds — while receive failures
and decode failures are logged and the loop continues, and a successful
forward stores the status and continues. (The panic is confined to the
spawned listener task; process-level behavior is outside the model.) -/
theorem c8_udp_forward (s : Status) (b : Bool) :
    udpStep (.datagram (some s) false) = .panicked
    ∧ udpStep (.datagram none b) = .loggedAndContinued
    ∧ udpStep .recvFailed = .loggedAndContinued
    ∧ udpStep (.datagram (some s) true) = .storedAndContinued s :=
  ⟨rfl, rfl, rfl, rfl⟩

/-! ## Lemmas about the CBOR parser

The stream-decoder claims rest on three facts about the item parser:
a successful parse consumes a nonempty prefix whose bytes alone already
parse to the same item (so appending bytes never moves an item
boundary), a malformed parse stays malformed under appended bytes, and
both are stable under extra fuel. -/

namespace Cbor

theorem readN_eq_some (n : Nat) (bs : List Nat) (a : Nat) (r : List Nat)
    (h : readN n bs = some (a, r)) :
    ∃ pre, bs = pre ++ r ∧ pre.length = n ∧ ∀ tl, readN n (pre ++ tl) = some (a, tl) := by
  unfold readN at h
  by_cases hlen : bs.length < n
  · rw [if_pos hlen] at h
    cases h
  · rw [if_neg hlen] at h
    injection h with h
    injection h with h1 h2
    refine ⟨bs.take n, ?_, ?_, ?_⟩
    · rw [← h2, List.take_append_drop]
    · rw [List.length_take]
      omega
    · intro tl
      have hpl : (bs.take n).length = n := by
        rw [List.length_take]
        omega
      unfold readN
      rw [if_neg (by rw [List.length_append, hpl]; omega)]
      rw [List.take_left' hpl, List.drop_left' hpl, h1]

theorem takeCount_eq_ok (n : Nat) (bs payload r : List Nat)
    (h : takeCount n bs = .ok payload r) :
    bs = payload ++ r ∧ payload.length = n ∧ ∀ tl, takeCount n (payload ++ tl) = .ok payload tl := by
  unfold takeCount at h
  by_cases hlen : bs.length < n
  · rw [if_pos hlen] at h
    cases h
  · rw [if_neg hlen] at h
    injection h with h1 h2
    have hpl : payload.length = n := by
      rw [← h1, List.length_take]
      omega
    refine ⟨?_, hpl, ?_⟩
    · rw [← h1, ← h2, List.take_append_drop]
    · intro tl
      unfold takeCount
      rw [if_neg (by rw [List.length_append, hpl]; omega)]
      rw [List.take_left' hpl, List.drop_left' hpl]

theorem parseArg_eq_ok (ai : Nat) (bs : List Nat) (a : Nat) (r : List Nat)
    (h : parseArg ai bs = .ok a r) :
    ∃ pre, bs = pre ++ r ∧ ∀ tl, parseArg ai (pre ++ tl) = .ok a tl := by
  unfold parseArg at h ⊢
  by_cases h1 : ai < 24
  · rw [if_pos h1] at h
    injection h with h1' h2'
    subst h1'
    subst h2'
    exact ⟨[], rfl, fun tl => by
      rw [if_pos h1]
      rw [List.nil_append]⟩
  · rw [if_neg h1] at h
    by_cases h2 : ai = 24
    · rw [if_pos h2] at h
      rcases hr : readN 1 bs with _ | ⟨a', r'⟩ <;> rw [hr] at h
      · cases h
      · injection h with h1' h2'
        obtain ⟨pre, hpre, _, hfwd⟩ := readN_eq_some 1 bs a' r' hr
        subst h1'
        subst h2'
        exact ⟨pre, hpre, fun tl => by rw [if_neg h1, if_pos h2, hfwd tl]⟩
    · rw [if_neg h2] at h
      by_cases h3 : ai = 25
      · rw [if_pos h3] at h
        rcases hr : readN 2 bs with _ | ⟨a', r'⟩ <;> rw [hr] at h
        · cases h
        · injection h with h1' h2'
          obtain ⟨pre, hpre, _, hfwd⟩ := readN_eq_some 2 bs a' r' hr
          subst h1'
          subst h2'
          exact ⟨pre, hpre, fun tl => by rw [if_neg h1, if_neg h2, if_pos h3, hfwd tl]⟩
      · rw [if_neg h3] at h
        by_cases h4 : ai = 26
        · rw [if_pos h4] at h
          rcases hr : readN 4 bs with _ | ⟨a', r'⟩ <;> rw [hr] at h
          · cases h
          · injection h with h1' h2'
            obtain ⟨pre, hpre, _, hfwd⟩ := readN_eq_some 4 bs a' r' hr
            subst h1'
            subst h2'
            exact ⟨pre, hpre, fun tl => by
              rw [if_neg h1, if_neg h2, if_neg h3, if_pos h4, hfwd tl]⟩
        · rw [if_neg h4] at h
          by_cases h5 : ai = 27
          · rw [if_pos h5] at h
            rcases hr : readN 8 bs with _ | ⟨a', r'⟩ <;> rw [hr] at h
            · cases h
            · injection h with h1' h2'
              obtain ⟨pre, hpre, _, hfwd⟩ := readN_eq_some 8 bs a' r' hr
              subst h1'
              subst h2'
              exact ⟨pre, hpre, fun tl => by
                rw [if_neg h1, if_neg h2, if_neg h3, if_neg h4, if_pos h5, hfwd tl]⟩
          · rw [if_neg h5] at h
            cases h

theorem parseArg_eq_bad (ai : Nat) (bs : List Nat) (h : parseArg ai bs = .bad) :
    ∀ bs', parseArg ai bs' = .bad := by
  intro bs'
  unfold parseArg at h ⊢
  by_cases h1 : ai < 24
  · rw [if_pos h1] at h
    cases h
  · rw [if_neg h1] at h ⊢
    by_cases h2 : ai = 24
    · rw [if_pos h2] at h
      rcases hr : readN 1 bs with _ | ⟨a', r'⟩ <;> rw [hr] at h <;> cases h
    · rw [if_neg h2] at h ⊢
      by_cases h3 : ai = 25
      · rw [if_pos h3] at h
        rcases hr : readN 2 bs with _ | ⟨a', r'⟩ <;> rw [hr] at h <;> cases h
      · rw [if_neg h3] at h ⊢
        by_cases h4 : ai = 26
        · rw [if_pos h4] at h
          rcases hr : readN 4 bs with _ | ⟨a', r'⟩ <;> rw [hr] at h <;> cases h
        · rw [if_neg h4] at h ⊢
          by_cases h5 : ai = 27
          · rw [if_pos h5] at h
            rcases hr : readN 8 bs with _ | ⟨a', r'⟩ <;> rw [hr] at h <;> cases h
          · rw [if_neg h5]

end Cbor

namespace Cbor

theorem takeCount_ne_bad (n : Nat) (bs : List Nat) : takeCount n bs ≠ .bad := by
  unfold takeCount
  split <;> simp

/-- The boundary properties of the item parser, for every fuel level: a
successful parse consumes a nonempty prefix that re-parses to the same
item with any continuation and at least as much fuel, and a malformed
parse stays malformed under appended bytes and extra fuel. -/
theorem parseProps (fuel : Nat) :
    (∀ bs v r, parseVal fuel bs = .ok v r →
      ∃ pre, bs = pre ++ r ∧ 0 < pre.length
        ∧ ∀ f2 tl, (pre.length ≤ f2 ∨ fuel ≤ f2) → parseVal f2 (pre ++ tl) = .ok v tl)
    ∧ (∀ bs tl f2, parseVal fuel bs = .bad → fuel ≤ f2 → parseVal f2 (bs ++ tl) = .bad)
    ∧ (∀ n bs vs r, parseMany fuel n bs = .ok vs r →
      ∃ pre, bs = pre ++ r
        ∧ ∀ f2 tl, (pre.length ≤ f2 ∨ fuel ≤ f2) → parseMany f2 n (pre ++ tl) = .ok vs tl)
    ∧ (∀ n bs tl f2, parseMany fuel n bs = .bad → fuel ≤ f2 →
      parseMany f2 n (bs ++ tl) = .bad)
    ∧ (∀ n bs kvs r, parsePairs fuel n bs = .ok kvs r →
      ∃ pre, bs = pre ++ r
        ∧ ∀ f2 tl, (pre.length ≤ f2 ∨ fuel ≤ f2) → parsePairs f2 n (pre ++ tl) = .ok kvs tl)
    ∧ (∀ n bs tl f2, parsePairs fuel n bs = .bad → fuel ≤ f2 →
      parsePairs f2 n (bs ++ tl) = .bad) := by
  induction fuel with
  | zero =>
    refine ⟨?_, ?_, ?_, ?_, ?_, ?_⟩
    · intro bs v r h
      simp only [parseVal] at h
      cases h
    · intro bs tl f2 h hf2
      simp only [parseVal] at h
      cases h
    · intro n bs vs r h
      rcases n with _ | n
      · simp only [parseMany] at h
        injection h with h1 h2
        subst h1
        subst h2
        exact ⟨[], rfl, fun f2 tl _ => by simp [parseMany]⟩
      · simp only [parseMany, parseVal] at h
        cases h
    · intro n bs tl f2 h hf2
      rcases n with _ | n
      · simp only [parseMany] at h
        cases h
      · simp only [parseMany, parseVal] at h
        cases h
    · intro n bs kvs r h
      rcases n with _ | n
      · simp only [parsePairs] at h
        injection h with h1 h2
        subst h1
        subst h2
        exact ⟨[], rfl, fun f2 tl _ => by simp [parsePairs]⟩
      · simp only [parsePairs, parseVal] at h
        cases h
    · intro n bs tl f2 h hf2
      rcases n with _ | n
      · simp only [parsePairs] at h
        cases h
      · simp only [parsePairs, parseVal] at h
        cases h
  | succ fuel ih =>
    obtain ⟨ihA, ihB, ihC, ihD, ihE, ihF⟩ := ih
    have A : ∀ bs v r, parseVal (fuel + 1) bs = .ok v r →
        ∃ pre, bs = pre ++ r ∧ 0 < pre.length
          ∧ ∀ f2 tl, (pre.length ≤ f2 ∨ fuel + 1 ≤ f2) →
            parseVal f2 (pre ++ tl) = .ok v tl := by
      intro bs v r h
      rcases bs with _ | ⟨b, bs0⟩
      · simp only [parseVal] at h
        cases h
      · simp only [parseVal] at h
        by_cases m0 : b / 32 = 0
        · rw [if_pos m0] at h
          rcases ha : parseArg (b % 32) bs0 with _ | _ | ⟨n, r1⟩ <;> simp only [ha] at h
          · cases h
          · cases h
          · injection h with hv hr
            subst hv
            subst hr
            obtain ⟨preA, hpreA, hfwdA⟩ := parseArg_eq_ok _ _ _ _ ha
            refine ⟨b :: preA, by rw [hpreA]; rfl, by simp, ?_⟩
            intro f2 tl hf2
            rcases f2 with _ | f2
            · rcases hf2 with hf2 | hf2
              · simp only [List.length_cons, List.length_append] at hf2
                omega
              · omega
            · simp only [List.cons_append, parseVal]
              rw [if_pos m0, hfwdA tl]
        · rw [if_neg m0] at h
          by_cases m1 : b / 32 = 1
          · rw [if_pos m1] at h
            rcases ha : parseArg (b % 32) bs0 with _ | _ | ⟨n, r1⟩ <;> simp only [ha] at h
            · cases h
            · cases h
            · injection h with hv hr
              subst hv
              subst hr
              obtain ⟨preA, hpreA, hfwdA⟩ := parseArg_eq_ok _ _ _ _ ha
              refine ⟨b :: preA, by rw [hpreA]; rfl, by simp, ?_⟩
              intro f2 tl hf2
              rcases f2 with _ | f2
              · rcases hf2 with hf2 | hf2
                · simp only [List.length_cons, List.length_append] at hf2
                  omega
                · omega
              · simp only [List.cons_append, parseVal]
                rw [if_neg m0, if_pos m1, hfwdA tl]
          · rw [if_neg m1] at h
            by_cases m2 : b / 32 = 2
            · rw [if_pos m2] at h
              rcases ha : parseArg (b % 32) bs0 with _ | _ | ⟨n, r1⟩ <;> simp only [ha] at h
              · cases h
              · cases h
              · rcases htc : takeCount n r1 with _ | _ | ⟨payload, r2⟩ <;>
                  simp only [htc] at h
                · cases h
                · cases h
                · injection h with hv hr
                  subst hv
                  subst hr
                  obtain ⟨preA, hpreA, hfwdA⟩ := parseArg_eq_ok _ _ _ _ ha
                  obtain ⟨hpreT, hlenT, hfwdT⟩ := takeCount_eq_ok _ _ _ _ htc
                  refine ⟨b :: preA ++ payload, ?_, by simp, ?_⟩
                  · rw [hpreA, hpreT]
                    simp [List.append_assoc]
                  · intro f2 tl hf2
                    rcases f2 with _ | f2
                    · rcases hf2 with hf2 | hf2
                      · simp only [List.length_cons, List.length_append] at hf2
                        omega
                      · omega
                    · simp only [List.cons_append, List.append_assoc, parseVal]
                      rw [if_neg m0, if_neg m1, if_pos m2]
                      simp only [hfwdA (payload ++ tl), hfwdT tl]
            · rw [if_neg m2] at h
              by_cases m3 : b / 32 = 3
              · rw [if_pos m3] at h
                rcases ha : parseArg (b % 32) bs0 with _ | _ | ⟨n, r1⟩ <;> simp only [ha] at h
                · cases h
                · cases h
                · rcases htc : takeCount n r1 with _ | _ | ⟨payload, r2⟩ <;>
                    simp only [htc] at h
                  · cases h
                  · cases h
                  · injection h with hv hr
                    subst hv
                    subst hr
                    obtain ⟨preA, hpreA, hfwdA⟩ := parseArg_eq_ok _ _ _ _ ha
                    obtain ⟨hpreT, hlenT, hfwdT⟩ := takeCount_eq_ok _ _ _ _ htc
                    refine ⟨b :: preA ++ payload, ?_, by simp, ?_⟩
                    · rw [hpreA, hpreT]
                      simp [List.append_assoc]
                    · intro f2 tl hf2
                      rcases f2 with _ | f2
                      · rcases hf2 with hf2 | hf2
                        · simp only [List.length_cons, List.length_append] at hf2
                          omega
                        · omega
                      · simp only [List.cons_append, List.append_assoc, parseVal]
                        rw [if_neg m0, if_neg m1, if_neg m2, if_pos m3]
                        simp only [hfwdA (payload ++ tl), hfwdT tl]
              · rw [if_neg m3] at h
                by_cases m4 : b / 32 = 4
                · rw [if_pos m4] at h
                  rcases ha : parseArg (b % 32) bs0 with _ | _ | ⟨n, r1⟩ <;> simp only [ha] at h
                  · cases h
                  · cases h
                  · rcases hm : parseMany fuel n r1 with _ | _ | ⟨vs1, r2⟩ <;>
                      simp only [hm] at h
                    · cases h
                    · cases h
                    · injection h with hv hr
                      subst hv
                      subst hr
                      obtain ⟨preA, hpreA, hfwdA⟩ := parseArg_eq_ok _ _ _ _ ha
                      obtain ⟨preM, hpreM, hfwdM⟩ := ihC n r1 vs1 r2 hm
                      refine ⟨b :: preA ++ preM, ?_, by simp, ?_⟩
                      · rw [hpreA, hpreM]
                        simp [List.append_assoc]
                      · intro f2 tl hf2
                        rcases f2 with _ | f2
                        · rcases hf2 with hf2 | hf2
                          · simp only [List.length_cons, List.length_append] at hf2
                            omega
                          · omega
                        · simp only [List.cons_append, List.append_assoc, parseVal]
                          rw [if_neg m0, if_neg m1, if_neg m2, if_neg m3, if_pos m4]
                          simp only [hfwdA (preM ++ tl), hfwdM f2 tl (by
                            rcases hf2 with hf2 | hf2
                            · left
                              simp only [List.length_cons, List.length_append] at hf2
                              omega
                            · right
                              omega)]
                · rw [if_neg m4] at h
                  by_cases m5 : b / 32 = 5
                  · rw [if_pos m5] at h
                    rcases ha : parseArg (b % 32) bs0 with _ | _ | ⟨n, r1⟩ <;>
                      simp only [ha] at h
                    · cases h
                    · cases h
                    · rcases hm : parsePairs fuel n r1 with _ | _ | ⟨kvs1, r2⟩ <;>
                        simp only [hm] at h
                      · cases h
                      · cases h
                      · injection h with hv hr
                        subst hv
                        subst hr
                        obtain ⟨preA, hpreA, hfwdA⟩ := parseArg_eq_ok _ _ _ _ ha
                        obtain ⟨preM, hpreM, hfwdM⟩ := ihE n r1 kvs1 r2 hm
                        refine ⟨b :: preA ++ preM, ?_, by simp, ?_⟩
                        · rw [hpreA, hpreM]
                          simp [List.append_assoc]
                        · intro f2 tl hf2
                          rcases f2 with _ | f2
                          · rcases hf2 with hf2 | hf2
                            · simp only [List.length_cons, List.length_append] at hf2
                              omega
                            · omega
                          · simp only [List.cons_append, List.append_assoc, parseVal]
                            rw [if_neg m0, if_neg m1, if_neg m2, if_neg m3, if_neg m4,
                              if_pos m5]
                            simp only [hfwdA (preM ++ tl), hfwdM f2 tl (by
                              rcases hf2 with hf2 | hf2
                              · left
                                simp only [List.length_cons, List.length_append] at hf2
                                omega
                              · right
                                omega)]
                  · rw [if_neg m5] at h
                    by_cases m6 : b / 32 = 6
                    · rw [if_pos m6] at h
                      rcases ha : parseArg (b % 32) bs0 with _ | _ | ⟨n, r1⟩ <;>
                        simp only [ha] at h
                      · cases h
                      · cases h
                      · rcases hm : parseVal fuel r1 with _ | _ | ⟨v1, r2⟩ <;>
                          simp only [hm] at h
                        · cases h
                        · cases h
                        · injection h with hv hr
                          subst hv
                          subst hr
                          obtain ⟨preA, hpreA, hfwdA⟩ := parseArg_eq_ok _ _ _ _ ha
                          obtain ⟨preM, hpreM, _, hfwdM⟩ := ihA r1 v1 r2 hm
                          refine ⟨b :: preA ++ preM, ?_, by simp, ?_⟩
                          · rw [hpreA, hpreM]
                            simp [List.append_assoc]
                          · intro f2 tl hf2
                            rcases f2 with _ | f2
                            · rcases hf2 with hf2 | hf2
                              · simp only [List.length_cons, List.length_append] at hf2
                                omega
                              · omega
                            · simp only [List.cons_append, List.append_assoc, parseVal]
                              rw [if_neg m0, if_neg m1, if_neg m2, if_neg m3, if_neg m4,
                                if_neg m5, if_pos m6]
                              simp only [hfwdA (preM ++ tl), hfwdM f2 tl (by
                                rcases hf2 with hf2 | hf2
                                · left
                                  simp only [List.length_cons, List.length_append] at hf2
                                  omega
                                · right
                                  omega)]
                    · rw [if_neg m6] at h
                      by_cases m7 : b / 32 = 7
                      · rw [if_pos m7] at h
                        by_cases a1 : b % 32 < 24
                        · rw [if_pos a1] at h
                          injection h with hv hr
                          subst hv
                          subst hr
                          refine ⟨[b], rfl, by simp, ?_⟩
                          intro f2 tl hf2
                          rcases f2 with _ | f2
                          · rcases hf2 with hf2 | hf2
                            · simp only [List.length_cons, List.length_append] at hf2
                              omega
                            · omega
                          · simp only [List.cons_append, List.nil_append, parseVal]
                            rw [if_neg m0, if_neg m1, if_neg m2, if_neg m3, if_neg m4,
                              if_neg m5, if_neg m6, if_pos m7, if_pos a1]
                        · rw [if_neg a1] at h
                          by_cases a2 : b % 32 = 24
                          · rw [if_pos a2] at h
                            rcases hrd : readN 1 bs0 with _ | ⟨a, r1⟩ <;> simp only [hrd] at h
                            · cases h
                            · by_cases hlt : a < 32
                              · rw [if_pos hlt] at h
                                cases h
                              · rw [if_neg hlt] at h
                                injection h with hv hr
                                subst hv
                                subst hr
                                obtain ⟨preR, hpreR, _, hfwdR⟩ := readN_eq_some _ _ _ _ hrd
                                refine ⟨b :: preR, by rw [hpreR]; rfl, by simp, ?_⟩
                                intro f2 tl hf2
                                rcases f2 with _ | f2
                                · rcases hf2 with hf2 | hf2
                                  · simp only [List.length_cons, List.length_append] at hf2
                                    omega
                                  · omega
                                · simp only [List.cons_append, parseVal]
                                  rw [if_neg m0, if_neg m1, if_neg m2, if_neg m3, if_neg m4,
                                    if_neg m5, if_neg m6, if_pos m7, if_neg a1, if_pos a2]
                                  simp only [hfwdR tl]
                                  rw [if_neg hlt]
                          · rw [if_neg a2] at h
                            by_cases a3 : b % 32 = 25
                            · rw [if_pos a3] at h
                              rcases hrd : readN 2 bs0 with _ | ⟨a, r1⟩ <;> simp only [hrd] at h
                              · cases h
                              · injection h with hv hr
                                subst hv
                                subst hr
                                obtain ⟨preR, hpreR, _, hfwdR⟩ := readN_eq_some _ _ _ _ hrd
                                refine ⟨b :: preR, by rw [hpreR]; rfl, by simp, ?_⟩
                                intro f2 tl hf2
                                rcases f2 with _ | f2
                                · rcases hf2 with hf2 | hf2
                                  · simp only [List.length_cons, List.length_append] at hf2
                                    omega
                                  · omega
                                · simp only [List.cons_append, parseVal]
                                  rw [if_neg m0, if_neg m1, if_neg m2, if_neg m3, if_neg m4,
                                    if_neg m5, if_neg m6, if_pos m7, if_neg a1, if_neg a2,
                                    if_pos a3, hfwdR tl]
                            · rw [if_neg a3] at h
                              by_cases a4 : b % 32 = 26
                              · rw [if_pos a4] at h
                                rcases hrd : readN 4 bs0 with _ | ⟨a, r1⟩ <;>
                                  simp only [hrd] at h
                                · cases h
                                · injection h with hv hr
                                  subst hv
                                  subst hr
                                  obtain ⟨preR, hpreR, _, hfwdR⟩ := readN_eq_some _ _ _ _ hrd
                                  refine ⟨b :: preR, by rw [hpreR]; rfl, by simp, ?_⟩
                                  intro f2 tl hf2
                                  rcases f2 with _ | f2
                                  · rcases hf2 with hf2 | hf2
                                    · simp only [List.length_cons, List.length_append] at hf2
                                      omega
                                    · omega
                                  · simp only [List.cons_append, parseVal]
                                    rw [if_neg m0, if_neg m1, if_neg m2, if_neg m3, if_neg m4,
                                      if_neg m5, if_neg m6, if_pos m7, if_neg a1, if_neg a2,
                                      if_neg a3, if_pos a4, hfwdR tl]
                              · rw [if_neg a4] at h
                                by_cases a5 : b % 32 = 27
                                · rw [if_pos a5] at h
                                  rcases hrd : readN 8 bs0 with _ | ⟨a, r1⟩ <;>
                                    simp only [hrd] at h
                                  · cases h
                                  · injection h with hv hr
                                    subst hv
                                    subst hr
                                    obtain ⟨preR, hpreR, _, hfwdR⟩ :=
                                      readN_eq_some _ _ _ _ hrd
                                    refine ⟨b :: preR, by rw [hpreR]; rfl, by simp, ?_⟩
                                    intro f2 tl hf2
                                    rcases f2 with _ | f2
                                    · rcases hf2 with hf2 | hf2
                                      · simp only [List.length_cons, List.length_append] at hf2
                                        omega
                                      · omega
                                    · simp only [List.cons_append, parseVal]
                                      rw [if_neg m0, if_neg m1, if_neg m2, if_neg m3,
                                        if_neg m4, if_neg m5, if_neg m6, if_pos m7,
                                        if_neg a1, if_neg a2, if_neg a3, if_neg a4,
                                        if_pos a5, hfwdR tl]
                                · rw [if_neg a5] at h
                                  cases h
                      · rw [if_neg m7] at h
                        cases h
    have B : ∀ bs tl f2, parseVal (fuel + 1) bs = .bad → fuel + 1 ≤ f2 →
        parseVal f2 (bs ++ tl) = .bad := by
      intro bs tl f2 h hf2
      rcases f2 with _ | f2
      · omega
      rcases bs with _ | ⟨b, bs0⟩
      · simp only [parseVal] at h
        cases h
      simp only [parseVal] at h
      simp only [List.cons_append, parseVal]
      by_cases m0 : b / 32 = 0
      · rw [if_pos m0] at h
        rw [if_pos m0]
        rcases ha : parseArg (b % 32) bs0 with _ | _ | ⟨n, r1⟩ <;> simp only [ha] at h
        · cases h
        · simp only [parseArg_eq_bad _ _ ha (bs0 ++ tl)]
        · cases h
      rw [if_neg m0] at h
      rw [if_neg m0]
      by_cases m1 : b / 32 = 1
      · rw [if_pos m1] at h
        rw [if_pos m1]
        rcases ha : parseArg (b % 32) bs0 with _ | _ | ⟨n, r1⟩ <;> simp only [ha] at h
        · cases h
        · simp only [parseArg_eq_bad _ _ ha (bs0 ++ tl)]
        · cases h
      rw [if_neg m1] at h
      rw [if_neg m1]
      by_cases m2 : b / 32 = 2
      · rw [if_pos m2] at h
        rw [if_pos m2]
        rcases ha : parseArg (b % 32) bs0 with _ | _ | ⟨n, r1⟩ <;> simp only [ha] at h
        · cases h
        · simp only [parseArg_eq_bad _ _ ha (bs0 ++ tl)]
        · rcases htc : takeCount n r1 with _ | _ | ⟨payload, r2⟩ <;> simp only [htc] at h
          · cases h
          · exact absurd htc (takeCount_ne_bad _ _)
          · cases h
      rw [if_neg m2] at h
      rw [if_neg m2]
      by_cases m3 : b / 32 = 3
      · rw [if_pos m3] at h
        rw [if_pos m3]
        rcases ha : parseArg (b % 32) bs0 with _ | _ | ⟨n, r1⟩ <;> simp only [ha] at h
        · cases h
        · simp only [parseArg_eq_bad _ _ ha (bs0 ++ tl)]
        · rcases htc : takeCount n r1 with _ | _ | ⟨payload, r2⟩ <;> simp only [htc] at h
          · cases h
          · exact absurd htc (takeCount_ne_bad _ _)
          · cases h
      rw [if_neg m3] at h
      rw [if_neg m3]
      by_cases m4 : b / 32 = 4
      · rw [if_pos m4] at h
        rw [if_pos m4]
        rcases ha : parseArg (b % 32) bs0 with _ | _ | ⟨n, r1⟩ <;> simp only [ha] at h
        · cases h
        · simp only [parseArg_eq_bad _ _ ha (bs0 ++ tl)]
        · rcases hm : parseMany fuel n r1 with _ | _ | ⟨vs1, r2⟩ <;> simp only [hm] at h
          · cases h
          · obtain ⟨preA, hpreA, hfwdA⟩ := parseArg_eq_ok _ _ _ _ ha
            rw [hpreA]
            simp only [List.append_assoc]
            simp only [hfwdA (r1 ++ tl), ihD n r1 tl f2 hm (by omega)]
          · cases h
      rw [if_neg m4] at h
      rw [if_neg m4]
      by_cases m5 : b / 32 = 5
      · rw [if_pos m5] at h
        rw [if_pos m5]
        rcases ha : parseArg (b % 32) bs0 with _ | _ | ⟨n, r1⟩ <;> simp only [ha] at h
        · cases h
        · simp only [parseArg_eq_bad _ _ ha (bs0 ++ tl)]
        · rcases hm : parsePairs fuel n r1 with _ | _ | ⟨kvs1, r2⟩ <;> simp only [hm] at h
          · cases h
          · obtain ⟨preA, hpreA, hfwdA⟩ := parseArg_eq_ok _ _ _ _ ha
            rw [hpreA]
            simp only [List.append_assoc]
            simp only [hfwdA (r1 ++ tl), ihF n r1 tl f2 hm (by omega)]
          · cases h
      rw [if_neg m5] at h
      rw [if_neg m5]
      by_cases m6 : b / 32 = 6
      · rw [if_pos m6] at h
        rw [if_pos m6]
        rcases ha : parseArg (b % 32) bs0 with _ | _ | ⟨n, r1⟩ <;> simp only [ha] at h
        · cases h
        · simp only [parseArg_eq_bad _ _ ha (bs0 ++ tl)]
        · rcases hm : parseVal fuel r1 with _ | _ | ⟨v1, r2⟩ <;> simp only [hm] at h
          · cases h
          · obtain ⟨preA, hpreA, hfwdA⟩ := parseArg_eq_ok _ _ _ _ ha
            rw [hpreA]
            simp only [List.append_assoc]
            simp only [hfwdA (r1 ++ tl), ihB r1 tl f2 hm (by omega)]
          · cases h
      rw [if_neg m6] at h
      rw [if_neg m6]
      by_cases m7 : b / 32 = 7
      · rw [if_pos m7] at h
        rw [if_pos m7]
        by_cases a1 : b % 32 < 24
        · rw [if_pos a1] at h
          cases h
        rw [if_neg a1] at h
        rw [if_neg a1]
        by_cases a2 : b % 32 = 24
        · rw [if_pos a2] at h
          rw [if_pos a2]
          rcases hrd : readN 1 bs0 with _ | ⟨a, r1⟩ <;> simp only [hrd] at h
          · cases h
          · by_cases hlt : a < 32
            · obtain ⟨preR, hpreR, _, hfwdR⟩ := readN_eq_some _ _ _ _ hrd
              rw [hpreR]
              simp only [List.append_assoc]
              simp only [hfwdR (r1 ++ tl)]
              rw [if_pos hlt]
            · rw [if_neg hlt] at h
              cases h
        rw [if_neg a2] at h
        rw [if_neg a2]
        by_cases a3 : b % 32 = 25
        · rw [if_pos a3] at h
          rcases hrd : readN 2 bs0 with _ | ⟨a, r1⟩ <;> simp only [hrd] at h <;> cases h
        rw [if_neg a3] at h
        rw [if_neg a3]
        by_cases a4 : b % 32 = 26
        · rw [if_pos a4] at h
          rcases hrd : readN 4 bs0 with _ | ⟨a, r1⟩ <;> simp only [hrd] at h <;> cases h
        rw [if_neg a4] at h
        rw [if_neg a4]
        by_cases a5 : b % 32 = 27
        · rw [if_pos a5] at h
          rcases hrd : readN 8 bs0 with _ | ⟨a, r1⟩ <;> simp only [hrd] at h <;> cases h
        rw [if_neg a5]
      rw [if_neg m7]
    have C : ∀ n bs vs r, parseMany (fuel + 1) n bs = .ok vs r →
        ∃ pre, bs = pre ++ r
          ∧ ∀ f2 tl, (pre.length ≤ f2 ∨ fuel + 1 ≤ f2) →
            parseMany f2 n (pre ++ tl) = .ok vs tl := by
      intro n
      induction n with
      | zero =>
        intro bs vs r h
        simp only [parseMany] at h
        injection h with h1 h2
        subst h1
        subst h2
        exact ⟨[], rfl, fun f2 tl _ => by simp [parseMany]⟩
      | succ n ihn =>
        intro bs vs r h
        simp only [parseMany] at h
        rcases hv : parseVal (fuel + 1) bs with _ | _ | ⟨v1, r1⟩ <;> simp only [hv] at h
        · cases h
        · cases h
        · rcases hm : parseMany (fuel + 1) n r1 with _ | _ | ⟨vs1, r2⟩ <;> simp only [hm] at h
          · cases h
          · cases h
          · injection h with h1 h2
            subst h1
            subst h2
            obtain ⟨preV, hpreV, _, hfwdV⟩ := A bs v1 r1 hv
            obtain ⟨preM, hpreM, hfwdM⟩ := ihn r1 vs1 r2 hm
            refine ⟨preV ++ preM, ?_, ?_⟩
            · rw [hpreV, hpreM, List.append_assoc]
            · intro f2 tl hf2
              simp only [List.append_assoc, parseMany]
              simp only [hfwdV f2 (preM ++ tl) (by
                  rcases hf2 with hf2 | hf2
                  · left
                    simp only [List.length_append] at hf2
                    omega
                  · right
                    omega),
                hfwdM f2 tl (by
                  rcases hf2 with hf2 | hf2
                  · left
                    simp only [List.length_append] at hf2
                    omega
                  · right
                    omega)]
    have D : ∀ n bs tl f2, parseMany (fuel + 1) n bs = .bad → fuel + 1 ≤ f2 →
        parseMany f2 n (bs ++ tl) = .bad := by
      intro n
      induction n with
      | zero =>
        intro bs tl f2 h hf2
        simp only [parseMany] at h
        cases h
      | succ n ihn =>
        intro bs tl f2 h hf2
        simp only [parseMany] at h
        simp only [parseMany]
        rcases hv : parseVal (fuel + 1) bs with _ | _ | ⟨v1, r1⟩ <;> simp only [hv] at h
        · cases h
        · simp only [B bs tl f2 hv hf2]
        · rcases hm : parseMany (fuel + 1) n r1 with _ | _ | ⟨vs1, r2⟩ <;> simp only [hm] at h
          · cases h
          · obtain ⟨preV, hpreV, _, hfwdV⟩ := A bs v1 r1 hv
            rw [hpreV, List.append_assoc]
            simp only [hfwdV f2 (r1 ++ tl) (Or.inr hf2), ihn r1 tl f2 hm hf2]
          · cases h
    have E : ∀ n bs kvs r, parsePairs (fuel + 1) n bs = .ok kvs r →
        ∃ pre, bs = pre ++ r
          ∧ ∀ f2 tl, (pre.length ≤ f2 ∨ fuel + 1 ≤ f2) →
            parsePairs f2 n (pre ++ tl) = .ok kvs tl := by
      intro n
      induction n with
      | zero =>
        intro bs kvs r h
        simp only [parsePairs] at h
        injection h with h1 h2
        subst h1
        subst h2
        exact ⟨[], rfl, fun f2 tl _ => by simp [parsePairs]⟩
      | succ n ihn =>
        intro bs kvs r h
        simp only [parsePairs] at h
        rcases hv : parseVal (fuel + 1) bs with _ | _ | ⟨k1, r1⟩ <;> simp only [hv] at h
        · cases h
        · cases h
        · rcases hv2 : parseVal (fuel + 1) r1 with _ | _ | ⟨w1, r2⟩ <;> simp only [hv2] at h
          · cases h
          · cases h
          · rcases hm : parsePairs (fuel + 1) n r2 with _ | _ | ⟨kvs1, r3⟩ <;>
              simp only [hm] at h
            · cases h
            · cases h
            · injection h with h1 h2
              subst h1
              subst h2
              obtain ⟨preK, hpreK, _, hfwdK⟩ := A bs k1 r1 hv
              obtain ⟨preW, hpreW, _, hfwdW⟩ := A r1 w1 r2 hv2
              obtain ⟨preM, hpreM, hfwdM⟩ := ihn r2 kvs1 r3 hm
              refine ⟨preK ++ (preW ++ preM), ?_, ?_⟩
              · rw [hpreK, hpreW, hpreM]
                simp [List.append_assoc]
              · intro f2 tl hf2
                simp only [List.append_assoc, parsePairs]
                simp only [hfwdK f2 (preW ++ (preM ++ tl)) (by
                  rcases hf2 with hf2 | hf2
                  · left
                    simp only [List.length_append] at hf2
                    omega
                  · right
                    omega),
                  hfwdW f2 (preM ++ tl) (by
                  rcases hf2 with hf2 | hf2
                  · left
                    simp only [List.length_append] at hf2
                    omega
                  · right
                    omega),
                  hfwdM f2 tl (by
                  rcases hf2 with hf2 | hf2
                  · left
                    simp only [List.length_append] at hf2
                    omega
                  · right
                    omega)]
    have F : ∀ n bs tl f2, parsePairs (fuel + 1) n bs = .bad → fuel + 1 ≤ f2 →
        parsePairs f2 n (bs ++ tl) = .bad := by
      intro n
      induction n with
      | zero =>
        intro bs tl f2 h hf2
        simp only [parsePairs] at h
        cases h
      | succ n ihn =>
        intro bs tl f2 h hf2
        simp only [parsePairs] at h
        simp only [parsePairs]
        rcases hv : parseVal (fuel + 1) bs with _ | _ | ⟨k1, r1⟩ <;> simp only [hv] at h
        · cases h
        · simp only [B bs tl f2 hv hf2]
        · rcases hv2 : parseVal (fuel + 1) r1 with _ | _ | ⟨w1, r2⟩ <;> simp only [hv2] at h
          · cases h
          · obtain ⟨preK, hpreK, _, hfwdK⟩ := A bs k1 r1 hv
            rw [hpreK, List.append_assoc]
            simp only [hfwdK f2 (r1 ++ tl) (Or.inr hf2), B r1 tl f2 hv2 hf2]
          · rcases hm : parsePairs (fuel + 1) n r2 with _ | _ | ⟨kvs1, r3⟩ <;>
              simp only [hm] at h
            · cases h
            · obtain ⟨preK, hpreK, _, hfwdK⟩ := A bs k1 r1 hv
              obtain ⟨preW, hpreW, _, hfwdW⟩ := A r1 w1 r2 hv2
              rw [hpreK, hpreW]
              simp only [List.append_assoc]
              simp only [hfwdK f2 (preW ++ (r2 ++ tl)) (Or.inr hf2),
                hfwdW f2 (r2 ++ tl) (Or.inr hf2),
                ihn r2 tl f2 hm hf2]
            · cases h
    exact ⟨A, B, C, D, E, F⟩

end Cbor

/-! ## Lemmas about the stream decoder -/

namespace Cbor

theorem parse_ok (bs : List Nat) (v : Val) (r : List Nat) (h : parse bs = .ok v r) :
    ∃ pre, bs = pre ++ r ∧ 0 < pre.length ∧ ∀ tl, parse (pre ++ tl) = .ok v tl := by
  unfold parse at h
  obtain ⟨pre, hpre, hlen, hfwd⟩ := (parseProps (bs.length + 1)).1 bs v r h
  refine ⟨pre, hpre, hlen, ?_⟩
  intro tl
  unfold parse
  exact hfwd ((pre ++ tl).length + 1) tl (Or.inl (by simp only [List.length_append]; omega))

theorem parse_bad (bs tl : List Nat) (h : parse bs = .bad) : parse (bs ++ tl) = .bad := by
  unfold parse at h ⊢
  exact (parseProps (bs.length + 1)).2.1 bs tl ((bs ++ tl).length + 1) h
    (by simp only [List.length_append]; omega)

theorem decode_ok (buf : List Nat) (v : Status) (rest : List Nat)
    (h : decode buf = .ok v rest) :
    ∃ pre, buf = pre ++ rest ∧ 0 < pre.length ∧ ∀ tl, decode (pre ++ tl) = .ok v tl := by
  unfold decode at h
  rcases hp : parse buf with _ | _ | ⟨v0, r0⟩ <;> simp only [hp] at h
  · cases h
  · cases h
  · rcases hs : statusOfVal v0 with _ | st <;> simp only [hs] at h
    · cases h
    · injection h with h1 h2
      subst h1
      subst h2
      obtain ⟨pre, hpre, hlen, hfwd⟩ := parse_ok buf v0 _ hp
      refine ⟨pre, hpre, hlen, ?_⟩
      intro tl
      unfold decode
      simp only [hfwd tl, hs]

theorem decode_bad (buf tl : List Nat) (h : decode buf = .bad) : decode (buf ++ tl) = .bad := by
  unfold decode at h
  rcases hp : parse buf with _ | _ | ⟨v0, r0⟩ <;> simp only [hp] at h
  · cases h
  · unfold decode
    simp only [parse_bad buf tl hp]
  · rcases hs : statusOfVal v0 with _ | st <;> simp only [hs] at h
    · obtain ⟨pre, hpre, _, hfwd⟩ := parse_ok buf v0 r0 hp
      unfold decode
      rw [hpre, List.append_assoc]
      simp only [hfwd (r0 ++ tl), hs]
    · cases h

theorem decode_nil : decode [] = .needMore := by
  simp [decode, parse, parseVal]

theorem drainF_congr (f1 : Nat) : ∀ (f2 : Nat) (buf : List Nat),
    buf.length < f1 → buf.length < f2 → drainF f1 buf = drainF f2 buf := by
  induction f1 with
  | zero =>
    intro f2 buf h1 h2
    omega
  | succ f1 ih =>
    intro f2 buf h1 h2
    rcases f2 with _ | f2
    · omega
    simp only [drainF]
    rcases hd : decode buf with _ | _ | ⟨v, rest⟩ <;> simp only [hd]
    obtain ⟨pre, hpre, hlen, _⟩ := decode_ok buf v rest hd
    have hr : rest.length < buf.length := by
      rw [hpre, List.length_append]
      omega
    rw [ih f2 rest (by omega) (by omega)]

theorem drain_cons (buf : List Nat) :
    drain buf = match decode buf with
      | .needMore => ([], buf, false)
      | .bad => ([], buf, true)
      | .ok v rest => (v :: (drain rest).1, (drain rest).2) := by
  rw [drain, drainF]
  rcases hd : decode buf with _ | _ | ⟨v, rest⟩ <;> simp only [hd]
  obtain ⟨pre, hpre, hlen, _⟩ := decode_ok buf v rest hd
  have hr : rest.length < buf.length := by
    rw [hpre, List.length_append]
    omega
  have he : drainF buf.length rest = drain rest := by
    rw [drain]
    exact drainF_congr buf.length (rest.length + 1) rest (by omega) (by omega)
  rw [he]

theorem drain_append_aux : ∀ (n : Nat) (buf c : List Nat), buf.length ≤ n →
    ((drain buf).2.2 = false →
      drain (buf ++ c) = ((drain buf).1 ++ (drain ((drain buf).2.1 ++ c)).1,
        (drain ((drain buf).2.1 ++ c)).2))
    ∧ ((drain buf).2.2 = true →
      drain (buf ++ c) = ((drain buf).1, ((drain buf).2.1 ++ c, true))) := by
  intro n
  induction n with
  | zero =>
    intro buf c hlen
    have hb : buf = [] := List.eq_nil_of_length_eq_zero (by omega)
    subst hb
    have h1 : drain [] = ([], [], false) := by rw [drain_cons, decode_nil]
    rw [h1]
    constructor
    · intro _
      simp
    · intro hcontra
      cases hcontra
  | succ n ih =>
    intro buf c hlen
    rcases hd : decode buf with _ | _ | ⟨v, rest⟩
    · have h1 : drain buf = ([], buf, false) := by rw [drain_cons, hd]
      rw [h1]
      constructor
      · intro _
        simp
      · intro hcontra
        cases hcontra
    · have h1 : drain buf = ([], buf, true) := by rw [drain_cons, hd]
      rw [h1]
      constructor
      · intro hcontra
        cases hcontra
      · intro _
        rw [drain_cons, decode_bad buf c hd]
    · obtain ⟨pre, hpre, hlen0, hfwd⟩ := decode_ok buf v rest hd
      have hrest : rest.length ≤ n := by
        have : buf.length = pre.length + rest.length := by
          rw [hpre, List.length_append]
        omega
      have h1 : drain buf = (v :: (drain rest).1, (drain rest).2) := by rw [drain_cons, hd]
      have h2 : decode (buf ++ c) = .ok v (rest ++ c) := by
        rw [hpre, List.append_assoc]
        exact hfwd (rest ++ c)
      have h3 : drain (buf ++ c) = (v :: (drain (rest ++ c)).1, (drain (rest ++ c)).2) := by
        rw [drain_cons, h2]
      obtain ⟨ih1, ih2⟩ := ih rest c hrest
      rw [h1]
      constructor
      · intro he
        have he' : (drain rest).2.2 = false := he
        rw [h3, ih1 he']
        simp [List.cons_append]
      · intro he
        have he' : (drain rest).2.2 = true := he
        rw [h3, ih2 he']

theorem drain_residual_aux : ∀ (n : Nat) (buf : List Nat), buf.length ≤ n →
    (drain buf).2.2 = false → decode ((drain buf).2.1) = .needMore := by
  intro n
  induction n with
  | zero =>
    intro buf hlen _
    have hb : buf = [] := List.eq_nil_of_length_eq_zero (by omega)
    subst hb
    have h1 : drain [] = ([], [], false) := by rw [drain_cons, decode_nil]
    rw [h1]
    exact decode_nil
  | succ n ih =>
    intro buf hlen he
    rcases hd : decode buf with _ | _ | ⟨v, rest⟩
    · have h1 : drain buf = ([], buf, false) := by rw [drain_cons, hd]
      rw [h1]
      exact hd
    · have h1 : drain buf = ([], buf, true) := by rw [drain_cons, hd]
      rw [h1] at he
      cases he
    · obtain ⟨pre, hpre, hlen0, _⟩ := decode_ok buf v rest hd
      have hrest : rest.length ≤ n := by
        have : buf.length = pre.length + rest.length := by
          rw [hpre, List.length_append]
        omega
      have h1 : drain buf = (v :: (drain rest).1, (drain rest).2) := by rw [drain_cons, hd]
      rw [h1] at he ⊢
      exact ih rest hrest he

theorem feed_dead (st : DecoderState) (c : List Nat) (h : st.dead = true) : feed st c = st := by
  simp [feed, h]

theorem feed_not_dead (st : DecoderState) (c : List Nat) (h : st.dead = false) :
    feed st c = { emitted := st.emitted ++ (drain (st.buf ++ c)).1
                  buf := (drain (st.buf ++ c)).2.1
                  dead := (drain (st.buf ++ c)).2.2 } := by
  simp [feed, h]

theorem feed_stable (st : DecoderState) (c : List Nat) :
    (feed st c).dead = true ∨ decode ((feed st c).buf) = .needMore := by
  rcases hd : st.dead with _ | _
  · rw [feed_not_dead st c hd]
    rcases he : (drain (st.buf ++ c)).2.2 with _ | _
    · right
      exact drain_residual_aux (st.buf ++ c).length (st.buf ++ c) le_rfl he
    · left
      rfl
  · rw [feed_dead st c hd]
    left
    exact hd

theorem feed_nil (st : DecoderState) (hst : st.dead = true ∨ decode st.buf = .needMore) :
    feed st [] = st := by
  rcases hd : st.dead with _ | _
  · have hnm : decode st.buf = .needMore := by
      rcases hst with h | h
      · rw [hd] at h
        cases h
      · exact h
    have hdr : drain st.buf = ([], st.buf, false) := by rw [drain_cons, hnm]
    rw [feed_not_dead st [] hd]
    obtain ⟨e, b, d⟩ := st
    simp only at hd
    subst hd
    simp [hdr]
  · exact feed_dead st [] hd

theorem feed_append (st : DecoderState) (a b : List Nat) (hd : st.dead = false) :
    (feed (feed st a) b).emitted = (feed st (a ++ b)).emitted
    ∧ (feed (feed st a) b).dead = (feed st (a ++ b)).dead := by
  obtain ⟨h1, h2⟩ := drain_append_aux (st.buf ++ a).length (st.buf ++ a) b le_rfl
  rw [feed_not_dead st a hd, feed_not_dead st (a ++ b) hd, ← List.append_assoc]
  rcases he : (drain (st.buf ++ a)).2.2 with _ | _
  · rw [feed_not_dead _ b (by simp [he])]
    rw [h1 he]
    simp [List.append_assoc]
  · rw [feed_dead _ b (by simp [he])]
    rw [h2 he]
    simp

theorem feedAll_dead (chunks : List (List Nat)) : ∀ (st : DecoderState), st.dead = true →
    feedAll st chunks = st := by
  induction chunks with
  | nil => intro st _; rfl
  | cons c cs ih =>
    intro st h
    show feedAll (feed st c) cs = st
    rw [feed_dead st c h]
    exact ih st h

theorem feedAll_join (chunks : List (List Nat)) : ∀ (st : DecoderState),
    (st.dead = true ∨ decode st.buf = .needMore) →
    (feedAll st chunks).emitted = (feed st chunks.flatten).emitted
    ∧ (feedAll st chunks).dead = (feed st chunks.flatten).dead := by
  induction chunks with
  | nil =>
    intro st hst
    rw [show feedAll st [] = st from rfl,
      show ([] : List (List Nat)).flatten = [] from rfl, feed_nil st hst]
    exact ⟨rfl, rfl⟩
  | cons c cs ih =>
    intro st hst
    show (feedAll (feed st c) cs).emitted = _ ∧ (feedAll (feed st c) cs).dead = _
    rw [show (c :: cs).flatten = c ++ cs.flatten from rfl]
    rcases hd : st.dead with _ | _
    · obtain ⟨ih1, ih2⟩ := ih (feed st c) (feed_stable st c)
      obtain ⟨hap1, hap2⟩ := feed_append st c cs.flatten hd
      exact ⟨ih1.trans hap1, ih2.trans hap2⟩
    · rw [feed_dead st c hd, feedAll_dead cs st hd, feed_dead st (c ++ cs.flatten) hd]
      exact ⟨rfl, rfl⟩

end Cbor

set_option maxHeartbeats 2000000 in
/-- The spec's example record round-trips through the embedded decoder:
its 39-byte CBOR encoding decodes to exactly `exMinimal` with nothing
left over. -/
theorem decode_exMinimal : Cbor.decode exMinimalCbor = .ok exMinimal [] := by
  simp [Cbor.decode, Cbor.parse, exMinimalCbor, Cbor.parseVal, Cbor.parseArg, Cbor.readN,
    Cbor.beNat, Cbor.takeCount, Cbor.parsePairs, Cbor.parseMany, Cbor.statusOfVal,
    Cbor.statusFromEntries, Cbor.statusKey, Cbor.keySourceId, Cbor.keyTimestamp,
    Cbor.keyPosition, Cbor.keyBearing, Cbor.keySpeed, Cbor.valOfSourceId,
    Cbor.valOfTimestamp, Cbor.maxI64, Cbor.tsMinUnix, Cbor.tsMaxUnix, exMinimal]

/-- C7. Streaming robustness of the TCP record decoder
(`CborDecoder::decode` driven by `FramedRead`): feeding a byte sequence
to the decoder in arbitrarily many chunks emits the same record sequence
(and the same error outcome) as feeding it in one read; and a successful
decode step consumes exactly the bytes of the decoded record — the
consumed prefix is nonempty, alone decodes to exactly that record, and
decodes to the same record in front of any continuation. (A decode
attempt that runs out of bytes mid-record yields `needMore`, which by
construction of `decode` leaves the buffer untouched.) -/
theorem c7_stream_chunking (chunks : List (List Nat)) (buf : List Nat) (v : Status)
    (rest : List Nat) :
    ((Cbor.feedAll Cbor.initState chunks).emitted
        = (Cbor.feed Cbor.initState chunks.flatten).emitted
      ∧ (Cbor.feedAll Cbor.initState chunks).dead
        = (Cbor.feed Cbor.initState chunks.flatten).dead)
    ∧ (Cbor.decode buf = .ok v rest →
      ∃ pre, buf = pre ++ rest ∧ 0 < pre.length ∧ Cbor.decode pre = .ok v []
        ∧ ∀ tl, Cbor.decode (pre ++ tl) = .ok v tl) := by
  constructor
  · exact Cbor.feedAll_join chunks Cbor.initState (Or.inr Cbor.decode_nil)
  · intro h
    obtain ⟨pre, hpre, hlen, hfwd⟩ := Cbor.decode_ok buf v rest h
    refine ⟨pre, hpre, hlen, ?_, hfwd⟩
    have h2 := hfwd []
    rwa [List.append_nil] at h2

/-- Witness for C7 at a concrete input: the spec's example record, decoded
from its own 39-byte encoding. -/
theorem c7_stream_chunking_witness :
    ∃ pre, exMinimalCbor = pre ++ [] ∧ 0 < pre.length
      ∧ Cbor.decode pre = .ok exMinimal []
      ∧ ∀ tl, Cbor.decode (pre ++ tl) = .ok exMinimal tl :=
  (c7_stream_chunking [] exMinimalCbor exMinimal []).2 decode_exMinimal

/-! ## Lemmas about `Status` field decoding -/

namespace Cbor

theorem mem_cons_key_iff (k : Val) (v : Val) (t : List (Val × Val)) (fld : SField)
    (hk : statusKey k ≠ some fld) :
    (∀ k2 v2, (k2, v2) ∈ ((k, v) :: t : List (Val × Val)) → statusKey k2 ≠ some fld)
    ↔ (∀ k2 v2, (k2, v2) ∈ t → statusKey k2 ≠ some fld) := by
  constructor
  · intro H k2 v2 hm
    exact H k2 v2 (List.mem_cons_of_mem _ hm)
  · intro H k2 v2 hm
    rcases List.mem_cons.mp hm with hm | hm
    · have : k2 = k := congrArg Prod.fst hm
      rw [this]
      exact hk
    · exact H k2 v2 hm

theorem statusFromEntries_unknown : ∀ (t : List (Val × Val)) (sids : Option SourceId)
    (tss : Option Timestamp) (ps : Option Coord) (bs ss : Option FVal) (k v : Val),
    (k, v) ∈ t → statusKey k = none → statusFromEntries t sids tss ps bs ss = none := by
  intro t
  induction t with
  | nil =>
    intro _ _ _ _ _ k v hm _
    exact absurd hm (List.not_mem_nil _)
  | cons kv t ihn =>
    intro sids tss ps bs ss k v hm hk
    obtain ⟨k0, v0⟩ := kv
    rcases List.mem_cons.mp hm with hm | hm
    · have hkk : k = k0 := congrArg Prod.fst hm
      subst hkk
      simp [statusFromEntries, hk]
    · rcases hk0 : statusKey k0 with _ | f
      · simp [statusFromEntries, hk0]
      · rcases f
        · rcases sids with _ | s0
          · rcases hv : valOfSourceId v0 with _ | sid
            · simp [statusFromEntries, hk0, hv]
            · simp only [statusFromEntries, hk0, hv, Option.isSome_none, Bool.false_eq_true,
                if_false]
              exact ihn (some sid) tss ps bs ss k v hm hk
          · simp [statusFromEntries, hk0]
        · rcases tss with _ | t0
          · rcases hv : valOfTimestamp v0 with _ | ts
            · simp [statusFromEntries, hk0, hv]
            · simp only [statusFromEntries, hk0, hv, Option.isSome_none, Bool.false_eq_true,
                if_false]
              exact ihn sids (some ts) ps bs ss k v hm hk
          · simp [statusFromEntries, hk0]
        · rcases ps with _ | p0
          · rcases hv : valOfCoord v0 with _ | p
            · simp [statusFromEntries, hk0, hv]
            · simp only [statusFromEntries, hk0, hv, Option.isSome_none, Bool.false_eq_true,
                if_false]
              exact ihn sids tss (some p) bs ss k v hm hk
          · simp [statusFromEntries, hk0]
        · rcases bs with _ | b0
          · rcases hv : valOfF64 v0 with _ | b
            · simp [statusFromEntries, hk0, hv]
            · simp only [statusFromEntries, hk0, hv, Option.isSome_none, Bool.false_eq_true,
                if_false]
              exact ihn sids tss ps (some b) ss k v hm hk
          · simp [statusFromEntries, hk0]
        · rcases ss with _ | s0
          · rcases hv : valOfF64 v0 with _ | sp
            · simp [statusFromEntries, hk0, hv]
            · simp only [statusFromEntries, hk0, hv, Option.isSome_none, Bool.false_eq_true,
                if_false]
              exact ihn sids tss ps bs (some sp) k v hm hk
          · simp [statusFromEntries, hk0]

end Cbor

namespace Cbor

theorem statusFromEntries_presence : ∀ (t : List (Val × Val)) (sids : Option SourceId)
    (tss : Option Timestamp) (ps : Option Coord) (bs ss : Option FVal) (st : Status),
    statusFromEntries t sids tss ps bs ss = some st →
    (st.position = none ↔ (ps = none ∧ ∀ k v, (k, v) ∈ t → statusKey k ≠ some .position))
    ∧ (st.bearing = none ↔ (bs = none ∧ ∀ k v, (k, v) ∈ t → statusKey k ≠ some .bearing))
    ∧ (st.speed = none ↔ (ss = none ∧ ∀ k v, (k, v) ∈ t → statusKey k ≠ some .speed)) := by
  intro t
  induction t with
  | nil =>
    intro sids tss ps bs ss st h
    rcases sids with _ | sid
    · simp [statusFromEntries] at h
    · rcases tss with _ | ts
      · simp [statusFromEntries] at h
      · simp only [statusFromEntries, Option.some.injEq] at h
        subst h
        refine ⟨?_, ?_, ?_⟩ <;> simp
  | cons kv t ihn =>
    intro sids tss ps bs ss st h
    obtain ⟨k, v⟩ := kv
    rcases hk : statusKey k with _ | f
    · rw [statusFromEntries_unknown ((k, v) :: t) sids tss ps bs ss k v
        (List.mem_cons_self _ _) hk] at h
      cases h
    · rcases f
      · rcases sids with _ | s0
        · rcases hv : valOfSourceId v with _ | sid
          · simp [statusFromEntries, hk, hv] at h
          · simp only [statusFromEntries, hk, hv, Option.isSome_none, Bool.false_eq_true,
              if_false] at h
            obtain ⟨ih1, ih2, ih3⟩ := ihn (some sid) tss ps bs ss st h
            refine ⟨?_, ?_, ?_⟩
            · rw [ih1, mem_cons_key_iff k v t .position (by rw [hk]; simp)]
            · rw [ih2, mem_cons_key_iff k v t .bearing (by rw [hk]; simp)]
            · rw [ih3, mem_cons_key_iff k v t .speed (by rw [hk]; simp)]
        · simp [statusFromEntries, hk] at h
      · rcases tss with _ | t0
        · rcases hv : valOfTimestamp v with _ | ts
          · simp [statusFromEntries, hk, hv] at h
          · simp only [statusFromEntries, hk, hv, Option.isSome_none, Bool.false_eq_true,
              if_false] at h
            obtain ⟨ih1, ih2, ih3⟩ := ihn sids (some ts) ps bs ss st h
            refine ⟨?_, ?_, ?_⟩
            · rw [ih1, mem_cons_key_iff k v t .position (by rw [hk]; simp)]
            · rw [ih2, mem_cons_key_iff k v t .bearing (by rw [hk]; simp)]
            · rw [ih3, mem_cons_key_iff k v t .speed (by rw [hk]; simp)]
        · simp [statusFromEntries, hk] at h
      · rcases ps with _ | p0
        · rcases hv : valOfCoord v with _ | p
          · simp [statusFromEntries, hk, hv] at h
          · simp only [statusFromEntries, hk, hv, Option.isSome_none, Bool.false_eq_true,
              if_false] at h
            obtain ⟨ih1, ih2, ih3⟩ := ihn sids tss (some p) bs ss st h
            refine ⟨?_, ?_, ?_⟩
            · constructor
              · intro hL
                rw [ih1] at hL
                cases hL.1
              · intro hR
                exact absurd hk (by
                  have := hR.2 k v (List.mem_cons_self _ _)
                  intro hc
                  exact this hc)
            · rw [ih2, mem_cons_key_iff k v t .bearing (by rw [hk]; simp)]
            · rw [ih3, mem_cons_key_iff k v t .speed (by rw [hk]; simp)]
        · simp [statusFromEntries, hk] at h
      · rcases bs with _ | b0
        · rcases hv : valOfF64 v with _ | b
          · simp [statusFromEntries, hk, hv] at h
          · simp only [statusFromEntries, hk, hv, Option.isSome_none, Bool.false_eq_true,
              if_false] at h
            obtain ⟨ih1, ih2, ih3⟩ := ihn sids tss ps (some b) ss st h
            refine ⟨?_, ?_, ?_⟩
            · rw [ih1, mem_cons_key_iff k v t .position (by rw [hk]; simp)]
            · constructor
              · intro hL
                rw [ih2] at hL
                cases hL.1
              · intro hR
                exact absurd hk (by
                  have := hR.2 k v (List.mem_cons_self _ _)
                  intro hc
                  exact this hc)
            · rw [ih3, mem_cons_key_iff k v t .speed (by rw [hk]; simp)]
        · simp [statusFromEntries, hk] at h
      · rcases ss with _ | s0
        · rcases hv : valOfF64 v with _ | sp
          · simp [statusFromEntries, hk, hv] at h
          · simp only [statusFromEntries, hk, hv, Option.isSome_none, Bool.false_eq_true,
              if_false] at h
            obtain ⟨ih1, ih2, ih3⟩ := ihn sids tss ps bs (some sp) st h
            refine ⟨?_, ?_, ?_⟩
            · rw [ih1, mem_cons_key_iff k v t .position (by rw [hk]; simp)]
            · rw [ih2, mem_cons_key_iff k v t .bearing (by rw [hk]; simp)]
            · constructor
              · intro hL
                rw [ih3] at hL
                cases hL.1
              · intro hR
                exact absurd hk (by
                  have := hR.2 k v (List.mem_cons_self _ _)
                  intro hc
                  exact this hc)
        · simp [statusFromEntries, hk] at h

end Cbor

/-- C6. Wire-format field handling of the `Status` decoder (serde derive
with `deny_unknown_fields`): a record map containing any entry whose key
identifies no `Status` field — in particular any unknown top-level field
name — fails to decode; and a record that does decode has each optional
field equal to `none` exactly when no entry of the map set that field:
presence in the map, not a sentinel value, signals optionality. -/
theorem c6_decode_fields (entries : List (Cbor.Val × Cbor.Val)) :
    (∀ k v, (k, v) ∈ entries → Cbor.statusKey k = none →
      Cbor.statusOfVal (.map entries) = none)
    ∧ (∀ st, Cbor.statusOfVal (.map entries) = some st →
      (st.position = none ↔ ∀ k v, (k, v) ∈ entries → Cbor.statusKey k ≠ some .position)
      ∧ (st.bearing = none ↔ ∀ k v, (k, v) ∈ entries → Cbor.statusKey k ≠ some .bearing)
      ∧ (st.speed = none ↔ ∀ k v, (k, v) ∈ entries → Cbor.statusKey k ≠ some .speed)) := by
  constructor
  · intro k v hm hk
    exact Cbor.statusFromEntries_unknown entries none none none none none k v hm hk
  · intro st h
    obtain ⟨ih1, ih2, ih3⟩ :=
      Cbor.statusFromEntries_presence entries none none none none none st h
    refine ⟨?_, ?_, ?_⟩
    · rw [ih1]
      simp
    · rw [ih2]
      simp
    · rw [ih3]
      simp

/-- Witness for C6 at concrete inputs: a map with the unknown field `"foo"`
fails to decode, and the decoded example record has `position = none`
matching the absence of a `position` entry. -/
theorem c6_decode_fields_witness :
    Cbor.statusOfVal (.map [(.tstr [0x66, 0x6f, 0x6f], .uint 1)]) = none
    ∧ (exMinimal.position = none ↔
      ∀ k v, (k, v) ∈ exMinimalEntries → Cbor.statusKey k ≠ some .position) :=
  ⟨(c6_decode_fields [(.tstr [0x66, 0x6f, 0x6f], .uint 1)]).1
      (.tstr [0x66, 0x6f, 0x6f]) (.uint 1) (List.mem_cons_self _ _) (by decide),
   ((c6_decode_fields exMinimalEntries).2 exMinimal (by decide)).1⟩
